import Mathlib

/-!
# Acme Product Importer: verification of the CSV bulk-import pipeline

Shallow embedding of the import pipeline of `app/main.py` (the async
orchestrator `_process_csv_async`, the `/api/task-status` reader
`get_task_status`, the `/api/cancel-upload` endpoint `cancel_upload` and
the product-creation path `create_product`), together with the batch
upsert SQL executed per chunk.  The Celery variant in `app/tasks.py`
shares the row filter, the dedup loop and the upsert statement verbatim,
so the same definitions cover both.

Python strings become `String`, database timestamps (`NOW()`) become an
abstract `Nat` clock passed in by the caller, the `products` table
becomes a `List StoredEntity` in insertion order paired with the next
serial id, and the Redis key-value store is observed through the list of
snapshots published by the run.
-/

namespace Acme

/-- One raw CSV data row as produced by `csv.DictReader`: the values of
the `name`, `sku` and `description` columns (a missing column reads as
`""`, mirroring `row.get(col, '')`). -/
structure Row where
  name : String
  sku : String
  description : String
deriving DecidableEq

/-- One element of `valid_products`: a validated row with trimmed fields
and uppercased sku, ready for the batch upsert. -/
structure Record where
  name : String
  sku : String
  description : String
deriving DecidableEq

/-- One row of the `products` table (`app/models.py`, class `Product`). -/
structure StoredEntity where
  id : Nat
  name : String
  sku : String
  description : String
  active : Bool
  created_at : Nat
  updated_at : Nat
deriving DecidableEq

/-- Python `str.strip()`: remove leading and trailing whitespace. -/
def pyStrip (s : String) : String :=
  ⟨((s.data.dropWhile Char.isWhitespace).reverse.dropWhile Char.isWhitespace).reverse⟩

/-- Python `str.upper()` (ASCII case mapping). -/
def pyUpper (s : String) : String :=
  ⟨s.data.map Char.toUpper⟩

/-- Python `str.lower()` (ASCII case mapping), used to model the
case-insensitive `ILIKE` sku comparison of `create_product`. -/
def pyLower (s : String) : String :=
  ⟨s.data.map Char.toLower⟩

/-- Per-row validation of `_process_csv_async` (main.py 568-583): trim
`name`, `sku`, `description`; drop the row when trimmed `name` or `sku`
is empty (`if name and sku:`); uppercase the sku. -/
def parseRow (row : Row) : Option Record :=
  let name := pyStrip row.name
  let sku := pyStrip row.sku
  let description := pyStrip row.description
  if name ≠ "" ∧ sku ≠ "" then some ⟨name, pyUpper sku, description⟩ else none

/-- The chunk loop of main.py 568-583: walk the rows, keep a `seen_skus`
set, and append a record for each valid row whose uppercased sku has not
been kept yet in this chunk (first occurrence wins). -/
def collectValid : List Row → List String → List Record
  | [], _ => []
  | row :: rest, seen =>
    match parseRow row with
    | none => collectValid rest seen
    | some r =>
      if r.sku ∈ seen then collectValid rest seen
      else r :: collectValid rest (r.sku :: seen)

/-- `valid_products` computed for one chunk (seen set starts empty). -/
def validProducts (chunk : List Row) : List Record :=
  collectValid chunk []

/-- The `DO UPDATE SET name = EXCLUDED.name, description =
EXCLUDED.description, updated_at = NOW()` assignment applied to a
conflicting stored row: only these three fields change. -/
def updRec (now : Nat) (p : Record) (e : StoredEntity) : StoredEntity :=
  { e with name := p.name, description := p.description, updated_at := now }

/-- One `VALUES` row of the batch statement
`INSERT INTO products ... ON CONFLICT (sku) DO UPDATE SET ...`
(main.py 598-605): if a stored row with exactly this sku exists, apply
`updRec` to it; otherwise insert a fresh row with `active = true` and
both timestamps set to now.  The state is the table plus the next serial
id. -/
def upsertOne (now : Nat) (st : List StoredEntity × Nat) (p : Record) :
    List StoredEntity × Nat :=
  if st.1.any (fun e => e.sku = p.sku) then
    (st.1.map (fun e => if e.sku = p.sku then updRec now p e else e), st.2)
  else
    (st.1 ++ [⟨st.2, p.name, p.sku, p.description, true, now, now⟩], st.2 + 1)

/-- The whole batch statement: the VALUES rows are applied in order. -/
def upsertBatch (now : Nat) (batch : List Record) (st : List StoredEntity × Nat) :
    List StoredEntity × Nat :=
  batch.foldl (upsertOne now) st

/-- Lookup of the stored row carrying a given sku (first match in table
order; the table is kept exact-sku unique by both write paths). -/
def findEntity (store : List StoredEntity) (k : String) : Option StoredEntity :=
  store.find? (fun e => e.sku = k)

/-- `chunk_size = 1000` (main.py 546). -/
def chunkSize : Nat := 1000

/-- `rows[chunk_start:chunk_end]` for `chunk_start in range(0, total_rows,
chunk_size)`: the rows cut into consecutive chunks of `chunkSize`. -/
def chunkList (rows : List Row) : List (List Row) :=
  if h : rows = [] then []
  else rows.take chunkSize :: chunkList (rows.drop chunkSize)
termination_by rows.length
decreasing_by
  have : rows.length ≠ 0 := fun hl => h (List.eq_nil_of_length_eq_zero hl)
  simp only [List.length_drop, chunkSize]
  omega

/-- The store effect of processing a list of chunks in order: dedup each
chunk, then batch-upsert it. -/
def applyChunks (now : Nat) (chunks : List (List Row)) (st : List StoredEntity × Nat) :
    List StoredEntity × Nat :=
  chunks.foldl (fun acc chunk => upsertBatch now (validProducts chunk) acc) st

/-- The store effect of one full successful import of `rows`. -/
def importStore (now : Nat) (rows : List Row) (st : List StoredEntity × Nat) :
    List StoredEntity × Nat :=
  applyChunks now (chunkList rows) st

/-- The last record of a list whose sku equals `k` (the value the final
upsert for that key wrote), or `none` when no record carries `k`. -/
def lastWrite : List Record → String → Option Record
  | [], _ => none
  | q :: rest, k =>
    match lastWrite rest k with
    | some p => some p
    | none => if q.sku = k then some q else none

/-- The JSON dictionary stored under `task:<id>` in Redis and returned by
the progress endpoint; absent dictionary keys are `none`. -/
structure Snapshot where
  state : String
  current : Option Nat
  total : Option Nat
  progress_percent : Option Nat
  statusMsg : String
  imported_count : Option Nat
  error : Option String
deriving DecidableEq

/-- The snapshot published before the chunk loop (main.py 538-543). -/
def initialSnap (totalRows : Nat) : Snapshot :=
  ⟨"PROGRESS", some 0, some totalRows, none,
    "Starting optimized CSV processing...", none, none⟩

/-- The snapshot published when a cancel marker is seen at a chunk
boundary (main.py 551-557): `current` is `chunk_start`. -/
def cancelSnap (chunkStart totalRows : Nat) : Snapshot :=
  ⟨"CANCELLED", some chunkStart, some totalRows, none,
    "Upload cancelled by user", none, none⟩

/-- Round `a / b` (with `b > 0`) to the nearest integer with ties to
even: the rounding step of IEEE-754 binary64 arithmetic, applied to a
scaled significand. -/
def natRoundDiv (a b : Nat) : Nat :=
  if 2 * (a % b) < b then a / b
  else if b < 2 * (a % b) then a / b + 1
  else if a / b % 2 = 0 then a / b else a / b + 1

/-- Scale the fraction `a / b` by powers of two until it lies in
`[2^52, 2^53)` — the binary64 significand range — tracking the binary
exponent; `fuel` bounds the number of steps. -/
def normScaleN : Nat → Nat → Nat → ℤ → Nat × Nat × ℤ
  | 0, a, b, e => (a, b, e)
  | fuel + 1, a, b, e =>
    if a < 2 ^ 52 * b then normScaleN fuel (2 * a) b (e - 1)
    else if 2 ^ 53 * b ≤ a then normScaleN fuel a (2 * b) (e + 1)
    else (a, b, e)

/-- Enough scaling steps for every quotient in binary64 range. -/
def b64Fuel : Nat := 2200

/-- The IEEE-754 binary64 result of Python's true division `p / t` of
the integer counters, as mantissa times power of two: scale the exact
quotient to a 53-bit significand, clamp the exponent at the subnormal
floor -1074, and round to nearest with ties to even.  Exact for every
quotient in binary64 range (overflow beyond 2^1024, where Python raises
OverflowError, is outside the model); `p = 0` or the guarded `t = 0`
give 0. -/
def b64Div (p t : Nat) : Nat × ℤ :=
  if p = 0 ∨ t = 0 then (0, 0)
  else
    let s := normScaleN b64Fuel p t 0
    let eu : ℤ := max s.2.2 (-1074)
    (natRoundDiv s.1 (s.2.1 * 2 ^ (eu - s.2.2).toNat), eu)

/-- Smallest shift `k ≥ k0` with `M < 2^(53+k)` (`fuel` bounds steps). -/
def findShift : Nat → Nat → Nat → Nat
  | 0, _, k => k
  | fuel + 1, M, k => if M < 2 ^ (53 + k) then k else findShift fuel M (k + 1)

/-- IEEE-754 binary64 multiplication of the float `m * 2^e` by 100: the
exact product mantissa `100 * m` is rounded back to at most 53 bits,
ties to even. -/
def b64Mul100 (me : Nat × ℤ) : Nat × ℤ :=
  let M := 100 * me.1
  let k := findShift 64 M 0
  (natRoundDiv M (2 ^ k), me.2 + k)

/-- Python `int()` of the nonnegative float `m * 2^e`: truncation toward
zero, which on a nonnegative value is the floor. -/
def b64ToInt (me : Nat × ℤ) : Nat :=
  if 0 ≤ me.2 then me.1 * 2 ^ me.2.toNat else me.1 / 2 ^ (-me.2).toNat

/-- `int(p / t * 100)` exactly as Python evaluates it on the integer
counters `p` and `t`: binary64 true division, binary64 multiplication
by 100, truncation toward zero. -/
def pyIntPercent (p t : Nat) : Nat :=
  b64ToInt (b64Mul100 (b64Div p t))

/-- The exact rational value of the float `m * 2^e`. -/
def b64Val (me : Nat × ℤ) : ℚ :=
  (me.1 : ℚ) * 2 ^ me.2

/-- The throttled progress snapshot (main.py 612-621): `current` is
`chunk_end`, the percent is `int(chunk_end / total_rows * 100)` in
Python float arithmetic. -/
def progressSnap (chunkEnd totalRows : Nat) : Snapshot :=
  ⟨"PROGRESS", some chunkEnd, some totalRows,
    some (pyIntPercent chunkEnd totalRows),
    s!"Processed {chunkEnd} of {totalRows} records ({pyIntPercent chunkEnd totalRows}%)",
    none, none⟩

/-- The terminal snapshot of a completed run (main.py 635-642). -/
def successSnap (totalRows imported : Nat) : Snapshot :=
  ⟨"SUCCESS", some totalRows, some totalRows, some 100,
    s!"Import completed! Processed {imported} products in optimized mode.",
    some imported, none⟩

/-- The terminal snapshot written by the exception handler
(main.py 651-655); it carries no `current`/`total`. -/
def failureSnap (msg : String) : Snapshot :=
  ⟨"FAILURE", none, none, none, s!"Import failed: {msg}", none, some msg⟩

/-- The durable ImportJob row (fields the import pipeline touches). -/
structure ImportJob where
  status : String
  records_processed : Nat
  total_records : Nat
deriving DecidableEq

/-- How one run of the orchestrator ended. -/
inductive Outcome where
  | success
  | cancelled
  | failed
deriving DecidableEq

/-- State coming out of the chunk loop: the table and next serial id, the
running `imported_count`, the snapshots published so far (in order), and
how the loop ended. -/
structure ChunkResult where
  store : List StoredEntity
  nextId : Nat
  imported : Nat
  published : List Snapshot
  outcome : Outcome
deriving DecidableEq

/-- The chunk loop of `_process_csv_async` (main.py 549-625).  `cancel k`
tells whether the `cancel:<task id>` marker is present in Redis when the
boundary of chunk `k` is checked; `failAt = some (j, msg)` injects an
unhandled exception (e.g. a failing batch write) while chunk `j` is being
processed, before its transaction commits.  Per chunk, in order: check
the cancel marker (publish a CANCELLED snapshot and return), dedup the
chunk, skip empty batches (`continue`), batch-upsert, bump
`imported_count` by the batch size, and publish a PROGRESS snapshot when
`chunk_start % 5000 == 0` or on the final chunk. -/
def processChunks (cancel : Nat → Bool) (failAt : Option (Nat × String))
    (now totalRows : Nat) :
    List (List Row) → Nat → List StoredEntity × Nat → Nat → List Snapshot →
    ChunkResult
  | [], _, st, imported, pub => ⟨st.1, st.2, imported, pub, .success⟩
  | chunk :: rest, k, st, imported, pub =>
    if cancel k then
      ⟨st.1, st.2, imported, pub ++ [cancelSnap (k * chunkSize) totalRows],
        .cancelled⟩
    else if failAt.map Prod.fst = some k then
      ⟨st.1, st.2, imported, pub, .failed⟩
    else
      let batch := validProducts chunk
      if batch.isEmpty then
        processChunks cancel failAt now totalRows rest (k + 1) st imported pub
      else
        let st' := upsertBatch now batch st
        let imported' := imported + batch.length
        let chunkEnd := min (k * chunkSize + chunkSize) totalRows
        let pub' :=
          if k * chunkSize % 5000 = 0 ∨ chunkEnd = totalRows then
            pub ++ [progressSnap chunkEnd totalRows]
          else pub
        processChunks cancel failAt now totalRows rest (k + 1) st' imported' pub'

/-- Everything observable after one run of `_process_csv_async`: the
final ImportJob row, the table, the published snapshots, the outcome. -/
structure RunResult where
  job : ImportJob
  store : List StoredEntity
  nextId : Nat
  published : List Snapshot
  outcome : Outcome
deriving DecidableEq

/-- `_process_csv_async` (main.py 509-658): record `total_records` and
flip the job to PROGRESS, publish the initial snapshot, run the chunk
loop, then finalize.  On success the job gets status SUCCESS and
`records_processed = imported_count` and a SUCCESS snapshot is published;
on cancellation the function returns after the CANCELLED snapshot
without touching the job row; on an unhandled error the handler sets the
job to FAILURE and publishes a FAILURE snapshot carrying the message.
The function is total: no exception reaches the uploader. -/
def runImport (cancel : Nat → Bool) (failAt : Option (Nat × String)) (now : Nat)
    (rows : List Row) (job0 : ImportJob) (store0 : List StoredEntity)
    (nid0 : Nat) : RunResult :=
  let totalRows := rows.length
  let job1 : ImportJob :=
    { job0 with status := "PROGRESS", total_records := totalRows }
  let r := processChunks cancel failAt now totalRows (chunkList rows) 0
    (store0, nid0) 0 [initialSnap totalRows]
  match r.outcome with
  | .success =>
    { job := { job1 with status := "SUCCESS", records_processed := r.imported },
      store := r.store, nextId := r.nextId,
      published := r.published ++ [successSnap totalRows r.imported],
      outcome := .success }
  | .cancelled =>
    { job := job1, store := r.store, nextId := r.nextId,
      published := r.published, outcome := .cancelled }
  | .failed =>
    { job := { job1 with status := "FAILURE" },
      store := r.store, nextId := r.nextId,
      published := r.published ++ [failureSnap ((failAt.map Prod.snd).getD "")],
      outcome := .failed }

/-- The view synthesized by `get_task_status` when Redis has no snapshot
but the ImportJob row exists (main.py 416-424): the percent is
`int(records_processed / total_records * 100)` in Python float
arithmetic when `total_records > 0`, else 0. -/
def fallbackView (j : ImportJob) : Snapshot :=
  ⟨j.status, some j.records_processed, some j.total_records,
    some (if j.total_records > 0 then
      pyIntPercent j.records_processed j.total_records else 0),
    s!"Processed {j.records_processed} of {j.total_records} records",
    none, none⟩

/-- The view returned when neither a snapshot nor a job row exists. -/
def notFoundView : Snapshot :=
  ⟨"NOT_FOUND", none, none, some 0, "Task not found", none, none⟩

/-- `get_task_status` (main.py 396-430): if Redis holds a snapshot,
return it and sync it into the job row (`status.get('current', 0)` /
`status.get('total', 0)`); otherwise synthesize a view from the job row;
otherwise NOT_FOUND.  Returns the response and the updated job row. -/
def getTaskStatus (snap : Option Snapshot) (job : Option ImportJob) :
    Snapshot × Option ImportJob :=
  match snap with
  | some s =>
    (s, job.map fun j =>
      { j with
          status := s.state
          records_processed := s.current.getD 0
          total_records := s.total.getD 0 })
  | none =>
    match job with
    | some j => (fallbackView j, some j)
    | none => (notFoundView, none)

/-- `create_product` (main.py 249-272): reject when some stored row's sku
matches case-insensitively (`Product.sku.ilike(sku)`, modelled as
case-insensitive equality for wildcard-free skus); otherwise insert the
product exactly as given (sku case preserved). -/
def createProduct (name sku description : String) (active : Bool) (now : Nat)
    (st : List StoredEntity × Nat) : Except String (List StoredEntity × Nat) :=
  if st.1.any (fun e => pyLower e.sku = pyLower sku) then
    .error "SKU already exists"
  else
    .ok (st.1 ++ [⟨st.2, name, sku, description, active, now, now⟩], st.2 + 1)

/-- The Redis key-value store, as a key-value association list. -/
def KVStore := List (String × String)

/-- Lookup in the key-value store. -/
def lookupKV (kv : KVStore) (k : String) : Option String :=
  (kv.find? (fun p => p.1 = k)).map Prod.snd

/-- `cancel_upload` (main.py 440-450): issues a Celery
`control.revoke(task_id)` and returns a message.  It writes nothing to
the Redis key-value store — in particular no `cancel:<task id>` marker,
which is the only signal `_process_csv_async` polls at chunk
boundaries. -/
def cancelUpload (kv : KVStore) (taskId : String) : KVStore × String :=
  (kv, "Task cancellation requested")

/-- A store mutation through one of the two creation paths of the
system: the normal create endpoint or an import batch upsert. -/
inductive StoreOp where
  | create (name sku description : String) (active : Bool)
  | upsert (batch : List Record)

/-- Apply one operation; a rejected create leaves the store unchanged. -/
def applyOp (now : Nat) (st : List StoredEntity × Nat) :
    StoreOp → List StoredEntity × Nat
  | .create n s d a =>
    match createProduct n s d a now st with
    | .ok st' => st'
    | .error _ => st
  | .upsert batch => upsertBatch now batch st

/-- Apply a sequence of creations and upserts. -/
def applyOps (now : Nat) (ops : List StoreOp) (st : List StoredEntity × Nat) :
    List StoredEntity × Nat :=
  ops.foldl (applyOp now) st

/-- All upserts one import performs, in order: each chunk deduplicated,
then concatenated. -/
def opsOf (rows : List Row) : List Record :=
  ((chunkList rows).map validProducts).flatten

/-- Whether some stored row carries sku `k`. -/
def containsKey (l : List StoredEntity) (k : String) : Bool :=
  l.any (fun e => e.sku = k)

/-- The cumulative effect of the pending upserts on one stored row: the
last record written for its sku wins. -/
def applyLast (now : Nat) (ops : List Record) (e : StoredEntity) : StoredEntity :=
  match lastWrite ops e.sku with
  | some p => updRec now p e
  | none => e

/-- All fields of a stored row except `updated_at` (the only field both
imports may legitimately differ on, since it takes the clock value). -/
def ghost (e : StoredEntity) : Nat × String × String × String × Bool × Nat :=
  (e.id, e.name, e.sku, e.description, e.active, e.created_at)

/-- The imported-count contribution of a list of chunks. -/
def sumValid (chunks : List (List Row)) : Nat :=
  (chunks.map (fun c => (validProducts c).length)).sum

/-- The `current` values of the PROGRESS snapshots of a publication
list, in publication order: what the records_processed counter exposed
to pollers goes through while the job is in PROGRESS. -/
def progressCurrents (pub : List Snapshot) : List Nat :=
  (pub.filter (fun s => s.state = "PROGRESS")).filterMap Snapshot.current
end Acme

namespace Acme

/-! ## Lemmas about the intra-chunk dedup loop -/

theorem collectValid_filter (k : String) (chunk : List Row) :
    ∀ seen : List String,
      (collectValid chunk seen).filter (fun r => r.sku = k)
        = if k ∈ seen then []
          else ((chunk.filterMap parseRow).filter (fun r => r.sku = k)).take 1 := by
  induction chunk with
  | nil => intro seen; simp [collectValid]
  | cons row rest ih =>
    intro seen
    simp only [collectValid, List.filterMap_cons]
    cases hp : parseRow row with
    | none => simpa using ih seen
    | some r =>
      by_cases hmem : r.sku ∈ seen
      · simp only [if_pos hmem]
        rw [ih seen]
        by_cases hks : k ∈ seen
        · simp [hks]
        · have hrk : ¬ (r.sku = k) := fun h => hks (h ▸ hmem)
          simp [hks, List.filter_cons, hrk]
      · simp only [if_neg hmem]
        by_cases hrk : r.sku = k
        · subst hrk
          rw [List.filter_cons_of_pos (by simp), ih (r.sku :: seen)]
          simp [hmem, List.filter_cons]
        · rw [List.filter_cons_of_neg (by simp [hrk]), ih (r.sku :: seen)]
          have hkr : ¬ k = r.sku := fun h => hrk h.symm
          by_cases hks : k ∈ seen
          · simp [hks]
          · simp [List.mem_cons, hks, hkr, List.filter_cons, hrk]

end Acme

namespace Acme

theorem collectValid_sku_nodup (chunk : List Row) :
    ∀ seen : List String,
      ((collectValid chunk seen).map Record.sku).Nodup ∧
        ∀ s ∈ seen, s ∉ (collectValid chunk seen).map Record.sku := by
  induction chunk with
  | nil => intro seen; simp [collectValid]
  | cons row rest ih =>
    intro seen
    simp only [collectValid]
    cases hp : parseRow row with
    | none => exact ih seen
    | some r =>
      by_cases hmem : r.sku ∈ seen
      · simpa [hmem] using ih seen
      · simp only [if_neg hmem, List.map_cons, List.nodup_cons]
        refine ⟨⟨(ih (r.sku :: seen)).2 r.sku (by simp), (ih (r.sku :: seen)).1⟩, ?_⟩
        intro s hs
        simp only [List.mem_cons, not_or]
        exact ⟨fun h => hmem (h ▸ hs),
          (ih (r.sku :: seen)).2 s (by simp [hs])⟩

/-- The upsert batch built from one chunk never repeats a sku. -/
theorem validProducts_sku_nodup (chunk : List Row) :
    ((validProducts chunk).map Record.sku).Nodup :=
  (collectValid_sku_nodup chunk []).1

/-- The per-key content of one chunk's upsert batch: exactly the first
valid occurrence of the key survives. -/
theorem validProducts_filter (chunk : List Row) (k : String) :
    (validProducts chunk).filter (fun r => r.sku = k)
      = ((chunk.filterMap parseRow).filter (fun r => r.sku = k)).take 1 := by
  simpa using collectValid_filter k chunk []

end Acme

namespace Acme

/-! ## Lemmas about the batch upsert -/

theorem find?_map_updRec_ne (now : Nat) (q : Record) (k : String)
    (hq : q.sku ≠ k) :
    ∀ l : List StoredEntity,
      (l.map (fun e => if e.sku = q.sku then updRec now q e else e)).find?
          (fun e => e.sku = k)
        = l.find? (fun e => e.sku = k)
  | [] => rfl
  | e :: l => by
    by_cases he : e.sku = q.sku
    · rw [List.map_cons, if_pos he,
        List.find?_cons_of_neg _ (by simp [updRec, he, hq]),
        List.find?_cons_of_neg _ (by simp [he, hq]),
        find?_map_updRec_ne now q k hq l]
    · rw [List.map_cons, if_neg he]
      by_cases hek : e.sku = k
      · rw [List.find?_cons_of_pos _ (by simp [hek]),
          List.find?_cons_of_pos _ (by simp [hek])]
      · rw [List.find?_cons_of_neg _ (by simp [hek]),
          List.find?_cons_of_neg _ (by simp [hek]),
          find?_map_updRec_ne now q k hq l]

theorem find?_map_updRec_self (now : Nat) (q : Record) :
    ∀ l : List StoredEntity,
      (l.map (fun e => if e.sku = q.sku then updRec now q e else e)).find?
          (fun e => e.sku = q.sku)
        = (l.find? (fun e => e.sku = q.sku)).map (updRec now q)
  | [] => rfl
  | e :: l => by
    by_cases he : e.sku = q.sku
    · rw [List.map_cons, if_pos he,
        List.find?_cons_of_pos _ (by simp [updRec, he]),
        List.find?_cons_of_pos _ (by simp [he])]
      rfl
    · rw [List.map_cons, if_neg he, List.find?_cons_of_neg _ (by simp [he]),
        List.find?_cons_of_neg _ (by simp [he]),
        find?_map_updRec_self now q l]

/-- An upsert for a different sku does not change what is stored under
`k`. -/
theorem findEntity_upsertOne_ne (now : Nat) (st : List StoredEntity × Nat)
    (q : Record) (k : String) (hq : q.sku ≠ k) :
    findEntity (upsertOne now st q).1 k = findEntity st.1 k := by
  by_cases hany : st.1.any (fun e => e.sku = q.sku)
  · have hbr : (upsertOne now st q).1
        = st.1.map (fun e => if e.sku = q.sku then updRec now q e else e) := by
      simp [upsertOne, hany]
    rw [findEntity, hbr, find?_map_updRec_ne now q k hq st.1]
    rfl
  · have hbr : (upsertOne now st q).1
        = st.1 ++ [(⟨st.2, q.name, q.sku, q.description, true, now, now⟩ :
            StoredEntity)] := by
      simp [upsertOne, hany]
    rw [findEntity, hbr, List.find?_append]
    have hnew : List.find? (fun e => e.sku = k)
        [(⟨st.2, q.name, q.sku, q.description, true, now, now⟩ :
          StoredEntity)] = none := by
      simp [hq]
    rw [hnew, Option.or_none]
    rfl

/-- An upsert whose sku is already stored rewrites exactly that row with
`updRec` (conflict branch). -/
theorem findEntity_upsertOne_update (now : Nat) (st : List StoredEntity × Nat)
    (q : Record) (e : StoredEntity) (he : findEntity st.1 q.sku = some e) :
    findEntity (upsertOne now st q).1 q.sku = some (updRec now q e) := by
  have he' : st.1.find? (fun x => decide (x.sku = q.sku)) = some e := he
  have hmem := List.mem_of_find?_eq_some he'
  have hpred := List.find?_some he'
  have hany : st.1.any (fun x => x.sku = q.sku) = true :=
    List.any_eq_true.2 ⟨e, hmem, hpred⟩
  have hbr : (upsertOne now st q).1
      = st.1.map (fun x => if x.sku = q.sku then updRec now q x else x) := by
    simp [upsertOne, hany]
  rw [findEntity, hbr, find?_map_updRec_self now q st.1, he', Option.map_some']

/-- An upsert whose sku is absent appends a fresh active row carrying the
next serial id (insert branch). -/
theorem findEntity_upsertOne_insert (now : Nat) (st : List StoredEntity × Nat)
    (q : Record) (he : findEntity st.1 q.sku = none) :
    findEntity (upsertOne now st q).1 q.sku
      = some ⟨st.2, q.name, q.sku, q.description, true, now, now⟩ := by
  have he' : st.1.find? (fun x => decide (x.sku = q.sku)) = none := he
  have hall := List.find?_eq_none.1 he'
  have hany : ¬ (st.1.any (fun x => x.sku = q.sku) = true) := by
    intro hc
    rcases List.any_eq_true.1 hc with ⟨x, hx, hpx⟩
    exact hall x hx hpx
  have hbr : (upsertOne now st q).1
      = st.1 ++ [(⟨st.2, q.name, q.sku, q.description, true, now, now⟩ :
          StoredEntity)] := by
    simp [upsertOne, hany]
  rw [findEntity, hbr, List.find?_append, he']
  simp

/-- A batch containing no record for `k` does not change what is stored
under `k`. -/
theorem findEntity_upsertBatch_not_mem (now : Nat) (k : String) :
    ∀ (batch : List Record) (st : List StoredEntity × Nat),
      k ∉ batch.map Record.sku →
      findEntity (upsertBatch now batch st).1 k = findEntity st.1 k
  | [], _, _ => rfl
  | q :: rest, st, h => by
    have hq : q.sku ≠ k := fun hqk => h (by simp [hqk])
    have hrest : k ∉ rest.map Record.sku := fun hmem => h (by simp [hmem])
    show findEntity (upsertBatch now rest (upsertOne now st q)).1 k = _
    rw [findEntity_upsertBatch_not_mem now k rest (upsertOne now st q) hrest,
      findEntity_upsertOne_ne now st q k hq]

/-- What a batch upsert stores under the sku of one of its records
(skus unique within the batch): the conflict branch rewrites the
existing row with `updRec`; the insert branch creates a fresh active
row with the record's fields. -/
theorem findEntity_upsertBatch_mem (now : Nat) (batch : List Record)
    (st : List StoredEntity × Nat) (p : Record) (hp : p ∈ batch)
    (hnd : (batch.map Record.sku).Nodup) :
    ∃ e', findEntity (upsertBatch now batch st).1 p.sku = some e' ∧
      (∀ e, findEntity st.1 p.sku = some e → e' = updRec now p e) ∧
      (findEntity st.1 p.sku = none →
        e'.active = true ∧ e'.name = p.name ∧ e'.sku = p.sku ∧
          e'.description = p.description ∧ e'.created_at = now ∧
          e'.updated_at = now) := by
  obtain ⟨s, t, rfl⟩ := List.append_of_mem hp
  rw [List.map_append, List.map_cons] at hnd
  have hparts := List.nodup_append.1 hnd
  have ht : p.sku ∉ t.map Record.sku := (List.nodup_cons.1 hparts.2.1).1
  have hs : p.sku ∉ s.map Record.sku := by
    intro hmem
    exact hparts.2.2 hmem (by simp)
  have hsplit : upsertBatch now (s ++ p :: t) st
      = upsertBatch now t (upsertOne now (upsertBatch now s st) p) := by
    simp [upsertBatch, List.foldl_append]
  have h₁ : findEntity (upsertBatch now s st).1 p.sku = findEntity st.1 p.sku :=
    findEntity_upsertBatch_not_mem now p.sku s st hs
  cases hfind : findEntity st.1 p.sku with
  | some e =>
    refine ⟨updRec now p e, ?_, ?_, ?_⟩
    · rw [hsplit, findEntity_upsertBatch_not_mem now p.sku t _ ht,
        findEntity_upsertOne_update now _ p e (h₁.trans hfind)]
    · intro e₂ he₂
      cases he₂
      rfl
    · intro hnone
      exact absurd hnone (Option.some_ne_none e)
  | none =>
    refine ⟨⟨(upsertBatch now s st).2, p.name, p.sku, p.description,
      true, now, now⟩, ?_, ?_, ?_⟩
    · rw [hsplit, findEntity_upsertBatch_not_mem now p.sku t _ ht,
        findEntity_upsertOne_insert now _ p (h₁.trans hfind)]
    · intro e₂ he₂
      exact Option.noConfusion he₂
    · intro _
      exact ⟨rfl, rfl, rfl, rfl, rfl, rfl⟩

end Acme

namespace Acme

/-- C1: within one chunk, a row enters the upsert batch only if its
trimmed name and trimmed key are non-empty and its uppercased key was
not already kept earlier in the chunk; among rows of the chunk whose
uppercased keys are equal exactly the first valid occurrence is kept
(later duplicates are discarded, not merged); consequently the entity
stored for that key after the chunk's batch upsert carries the first
occurrence's name and description. -/
theorem c1_intra_chunk_dedup (chunk : List Row) (k : String) :
    (validProducts chunk).filter (fun r => r.sku = k)
        = ((chunk.filterMap parseRow).filter (fun r => r.sku = k)).take 1 ∧
      ((validProducts chunk).map Record.sku).Nodup ∧
      ∀ (now : Nat) (st : List StoredEntity × Nat) (r : Record),
        (validProducts chunk).filter (fun x => x.sku = k) = [r] →
        (findEntity (upsertBatch now (validProducts chunk) st).1 k).map
            (fun e => (e.name, e.description)) = some (r.name, r.description) := by
  refine ⟨validProducts_filter chunk k, validProducts_sku_nodup chunk, ?_⟩
  intro now st r hr
  have hrmem : r ∈ (validProducts chunk).filter (fun x => x.sku = k) := by
    rw [hr]
    exact List.mem_singleton_self r
  have hmem : r ∈ validProducts chunk := List.mem_of_mem_filter hrmem
  have hsku : r.sku = k := by simpa using List.of_mem_filter hrmem
  subst hsku
  obtain ⟨e', he', hupd, hins⟩ :=
    findEntity_upsertBatch_mem now (validProducts chunk) st r hmem
      (validProducts_sku_nodup chunk)
  rw [he']
  cases hfind : findEntity st.1 r.sku with
  | some e =>
    rw [hupd e hfind]
    rfl
  | none =>
    obtain ⟨_, hname, _, hdesc, _, _⟩ := hins hfind
    simp [hname, hdesc]

/-- Witness for C1: a chunk whose second row repeats the key with
different case keeps the first row's name and description. -/
theorem c1_intra_chunk_dedup_witness :
    (findEntity (upsertBatch 0 (validProducts
        [⟨"X", "A", ""⟩, ⟨"Y", "a", "d"⟩]) ([], 0)).1 "A").map
      (fun e => (e.name, e.description)) = some ("X", "") :=
  (c1_intra_chunk_dedup [⟨"X", "A", ""⟩, ⟨"Y", "a", "d"⟩] "A").2.2 0 ([], 0)
    ⟨"X", "A", ""⟩ (by decide)

/-- C3: in a batch upsert whose skus are unique within the batch, a
record whose key already names a stored entity rewrites only that
entity's name, description and updated_at — its id, active and
created_at are untouched; a record whose key names no stored entity
creates a new entity with `active = true`; keys named by no record of
the batch are left unchanged. -/
theorem c3_upsert_frame (now : Nat) (batch : List Record)
    (st : List StoredEntity × Nat) (p : Record) (hp : p ∈ batch)
    (hnd : (batch.map Record.sku).Nodup) :
    (∀ e, findEntity st.1 p.sku = some e →
        findEntity (upsertBatch now batch st).1 p.sku
          = some { e with
              name := p.name
              description := p.description
              updated_at := now }) ∧
      (findEntity st.1 p.sku = none →
        ∃ e', findEntity (upsertBatch now batch st).1 p.sku = some e' ∧
          e'.active = true ∧ e'.name = p.name ∧ e'.sku = p.sku ∧
            e'.description = p.description ∧ e'.created_at = now) ∧
      ∀ k, k ∉ batch.map Record.sku →
        findEntity (upsertBatch now batch st).1 k = findEntity st.1 k := by
  obtain ⟨e', he', hupd, hins⟩ := findEntity_upsertBatch_mem now batch st p hp hnd
  refine ⟨?_, ?_, fun k hk => findEntity_upsertBatch_not_mem now k batch st hk⟩
  · intro e he
    rw [he', hupd e he]
    rfl
  · intro hnone
    obtain ⟨h1, h2, h3, h4, h5, _⟩ := hins hnone
    exact ⟨e', he', h1, h2, h3, h4, h5⟩

/-- Witness for C3: upserting over an existing inactive row keeps id 7,
`active = false` and created_at 1, while name/description/updated_at
take the batch values. -/
theorem c3_upsert_frame_witness :
    findEntity (upsertBatch 5 [⟨"N2", "A", "D2"⟩]
        ([⟨7, "N1", "A", "D1", false, 1, 1⟩], 9)).1 "A"
      = some ⟨7, "N2", "A", "D2", false, 1, 5⟩ := by
  have h := c3_upsert_frame 5 [⟨"N2", "A", "D2"⟩]
    ([⟨7, "N1", "A", "D1", false, 1, 1⟩], 9) ⟨"N2", "A", "D2"⟩
    (by decide) (by decide)
  exact h.1 ⟨7, "N1", "A", "D1", false, 1, 1⟩ (by decide)

end Acme

namespace Acme

/-! ## Exact-sku uniqueness of the stored table -/

theorem upsertOne_sku_nodup (now : Nat) (st : List StoredEntity × Nat)
    (q : Record) (h : (st.1.map StoredEntity.sku).Nodup) :
    ((upsertOne now st q).1.map StoredEntity.sku).Nodup := by
  by_cases hany : st.1.any (fun e => e.sku = q.sku)
  · have hbr : (upsertOne now st q).1
        = st.1.map (fun e => if e.sku = q.sku then updRec now q e else e) := by
      simp [upsertOne, hany]
    have hskus : (st.1.map (fun e => if e.sku = q.sku then updRec now q e
        else e)).map StoredEntity.sku = st.1.map StoredEntity.sku := by
      rw [List.map_map]
      refine List.map_congr_left (fun e _ => ?_)
      by_cases he : e.sku = q.sku <;> simp [updRec, he]
    rw [hbr, hskus]
    exact h
  · have hbr : (upsertOne now st q).1
        = st.1 ++ [(⟨st.2, q.name, q.sku, q.description, true, now, now⟩ :
            StoredEntity)] := by
      simp [upsertOne, hany]
    have hnotin : q.sku ∉ st.1.map StoredEntity.sku := by
      intro hmem
      rcases List.mem_map.1 hmem with ⟨e, he, hesku⟩
      exact hany (List.any_eq_true.2 ⟨e, he, by simp [hesku]⟩)
    rw [hbr, List.map_append]
    simpa [List.nodup_append, h] using fun hmem => hnotin hmem

theorem upsertBatch_sku_nodup (now : Nat) :
    ∀ (batch : List Record) (st : List StoredEntity × Nat),
      (st.1.map StoredEntity.sku).Nodup →
      ((upsertBatch now batch st).1.map StoredEntity.sku).Nodup
  | [], _, h => h
  | q :: rest, st, h =>
    upsertBatch_sku_nodup now rest (upsertOne now st q)
      (upsertOne_sku_nodup now st q h)

theorem createProduct_sku_nodup (name sku description : String) (active : Bool)
    (now : Nat) (st : List StoredEntity × Nat)
    (h : (st.1.map StoredEntity.sku).Nodup)
    (st' : List StoredEntity × Nat)
    (hok : createProduct name sku description active now st = .ok st') :
    (st'.1.map StoredEntity.sku).Nodup := by
  unfold createProduct at hok
  by_cases hany : st.1.any (fun e => pyLower e.sku = pyLower sku)
  · rw [if_pos hany] at hok
    cases hok
  · rw [if_neg hany] at hok
    cases hok
    have hnotin : sku ∉ st.1.map StoredEntity.sku := by
      intro hmem
      rcases List.mem_map.1 hmem with ⟨e, he, hesku⟩
      exact hany (List.any_eq_true.2 ⟨e, he, by simp [hesku]⟩)
    rw [List.map_append]
    simpa [List.nodup_append, h] using fun hmem => hnotin hmem

/-- C5 fails on the code: the create endpoint checks the sku
case-insensitively but stores it verbatim, while the import upsert
conflicts only on the exact (uppercased) sku.  Creating sku `abc` and
then importing a record with sku `ABC` leaves two stored entities whose
keys are equal case-insensitively. -/
theorem c5_counterexample :
    createProduct "Widget" "abc" "" true 0 ([], 0)
        = .ok ([⟨0, "Widget", "abc", "", true, 0, 0⟩], 1) ∧
      (upsertBatch 1 [⟨"Gadget", "ABC", "d"⟩]
          ([⟨0, "Widget", "abc", "", true, 0, 0⟩], 1)).1
        = [⟨0, "Widget", "abc", "", true, 0, 0⟩,
           ⟨1, "Gadget", "ABC", "d", true, 1, 1⟩] ∧
      ¬ ((upsertBatch 1 [⟨"Gadget", "ABC", "d"⟩]
          ([⟨0, "Widget", "abc", "", true, 0, 0⟩], 1)).1.Pairwise
            (fun a b => pyLower a.sku ≠ pyLower b.sku)) := by
  refine ⟨rfl, by decide, ?_⟩
  intro hpw
  have := (List.pairwise_cons.1 hpw).1
    ⟨1, "Gadget", "ABC", "d", true, 1, 1⟩ (by decide)
  exact this (by decide)

/-- C5 amended: what both write paths do preserve is exact (case
sensitive) sku uniqueness — the database unique constraint on `sku`.
Any sequence of creations (rejected creates change nothing) and import
upserts keeps the stored skus free of exact duplicates. -/
theorem c5_amended (now : Nat) (ops : List StoreOp)
    (st : List StoredEntity × Nat)
    (h : (st.1.map StoredEntity.sku).Nodup) :
    ((applyOps now ops st).1.map StoredEntity.sku).Nodup := by
  induction ops generalizing st with
  | nil => exact h
  | cons op rest ih =>
    refine ih (applyOp now st op) ?_
    cases op with
    | create n s d a =>
      cases hok : createProduct n s d a now st with
      | ok st' =>
        have := createProduct_sku_nodup n s d a now st h st' hok
        simpa [applyOp, hok] using this
      | error msg => simpa [applyOp, hok] using h
    | upsert batch => exact upsertBatch_sku_nodup now batch st h

/-- Witness for the amended C5: a create, a rejected duplicate create and
an upsert keep the exact skus distinct. -/
theorem c5_amended_witness :
    ((applyOps 0 [.create "W" "abc" "" true, .create "V" "ABC" "" true,
        .upsert [⟨"G", "ABC", "d"⟩, ⟨"H", "B", ""⟩]] ([], 0)).1.map
      StoredEntity.sku).Nodup :=
  c5_amended 0 [.create "W" "abc" "" true, .create "V" "ABC" "" true,
    .upsert [⟨"G", "ABC", "d"⟩, ⟨"H", "B", ""⟩]] ([], 0) (by decide)

end Acme

namespace Acme

/-! ## Idempotence machinery: one import as a flat fold of upserts -/

theorem importStore_eq_foldl (now : Nat) (rows : List Row)
    (st : List StoredEntity × Nat) :
    importStore now rows st = (opsOf rows).foldl (upsertOne now) st := by
  rw [importStore, applyChunks, opsOf, List.foldl_flatten, List.foldl_map]
  rfl

theorem containsKey_upsertOne (now : Nat) (st : List StoredEntity × Nat)
    (q : Record) (k : String) (h : containsKey st.1 k = true) :
    containsKey (upsertOne now st q).1 k = true := by
  rcases List.any_eq_true.1 h with ⟨e, he, hek⟩
  by_cases hany : st.1.any (fun x => x.sku = q.sku)
  · have hbr : (upsertOne now st q).1
        = st.1.map (fun x => if x.sku = q.sku then updRec now q x else x) := by
      simp [upsertOne, hany]
    refine List.any_eq_true.2 ?_
    refine ⟨if e.sku = q.sku then updRec now q e else e, ?_, ?_⟩
    · rw [hbr]
      exact List.mem_map_of_mem _ he
    · by_cases hq : e.sku = q.sku <;> simp_all [updRec]
  · have hbr : (upsertOne now st q).1
        = st.1 ++ [(⟨st.2, q.name, q.sku, q.description, true, now, now⟩ :
            StoredEntity)] := by
      simp [upsertOne, hany]
    exact List.any_eq_true.2 ⟨e, by rw [hbr]; exact List.mem_append_left _ he, hek⟩

theorem containsKey_upsertOne_self (now : Nat) (st : List StoredEntity × Nat)
    (q : Record) : containsKey (upsertOne now st q).1 q.sku = true := by
  by_cases hany : st.1.any (fun x => x.sku = q.sku)
  · rcases List.any_eq_true.1 hany with ⟨e, he, hek⟩
    have hbr : (upsertOne now st q).1
        = st.1.map (fun x => if x.sku = q.sku then updRec now q x else x) := by
      simp [upsertOne, hany]
    refine List.any_eq_true.2 ⟨updRec now q e, ?_, ?_⟩
    · rw [hbr]
      have : updRec now q e = if e.sku = q.sku then updRec now q e else e := by
        simp_all
      rw [this]
      exact List.mem_map_of_mem _ he
    · simp_all [updRec]
  · have hbr : (upsertOne now st q).1
        = st.1 ++ [(⟨st.2, q.name, q.sku, q.description, true, now, now⟩ :
            StoredEntity)] := by
      simp [upsertOne, hany]
    refine List.any_eq_true.2
      ⟨⟨st.2, q.name, q.sku, q.description, true, now, now⟩, ?_, by simp⟩
    rw [hbr]
    exact List.mem_append_right _ (by simp)

theorem containsKey_foldl_mono (now : Nat) :
    ∀ (ops : List Record) (st : List StoredEntity × Nat) (k : String),
      containsKey st.1 k = true →
      containsKey ((ops.foldl (upsertOne now) st).1) k = true
  | [], _, _, h => h
  | q :: rest, st, k, h =>
    containsKey_foldl_mono now rest (upsertOne now st q) k
      (containsKey_upsertOne now st q k h)

theorem containsKey_foldl_mem (now : Nat) :
    ∀ (ops : List Record) (st : List StoredEntity × Nat) (p : Record),
      p ∈ ops →
      containsKey ((ops.foldl (upsertOne now) st).1) p.sku = true
  | [], _, _, hp => absurd hp (List.not_mem_nil _)
  | q :: rest, st, p, hp => by
    rcases List.mem_cons.1 hp with hq | hrest
    · subst hq
      exact containsKey_foldl_mono now rest (upsertOne now st p) p.sku
        (containsKey_upsertOne_self now st p)
    · exact containsKey_foldl_mem now rest (upsertOne now st q) p hrest

end Acme

namespace Acme

theorem lastWrite_eq_none_forall {ops : List Record} {k : String}
    (h : lastWrite ops k = none) : ∀ r ∈ ops, r.sku ≠ k := by
  induction ops with
  | nil => intro r hr; cases hr
  | cons q rest ih =>
    intro r hr
    have hunfold : lastWrite (q :: rest) k = match lastWrite rest k with
        | some p => some p
        | none => if q.sku = k then some q else none := rfl
    rw [hunfold] at h
    cases hrest : lastWrite rest k with
    | some p => rw [hrest] at h; cases h
    | none =>
      rw [hrest] at h
      by_cases hq : q.sku = k
      · rw [if_pos hq] at h; cases h
      · rcases List.mem_cons.1 hr with rfl | hr'
        · exact hq
        · exact ih hrest r hr'

/-- An upsert for a sku other than `k` leaves the rows carrying `k`
untouched (as a sublist). -/
theorem filter_sku_upsertOne (now : Nat) (st : List StoredEntity × Nat)
    (q : Record) (k : String) (hq : q.sku ≠ k) :
    (upsertOne now st q).1.filter (fun e => e.sku = k)
      = st.1.filter (fun e => e.sku = k) := by
  by_cases hany : st.1.any (fun x => x.sku = q.sku)
  · have hbr : (upsertOne now st q).1
        = st.1.map (fun x => if x.sku = q.sku then updRec now q x else x) := by
      simp [upsertOne, hany]
    rw [hbr, List.filter_map]
    have hcomp : ((fun e : StoredEntity => decide (e.sku = k)) ∘
        (fun x => if x.sku = q.sku then updRec now q x else x))
          = fun e : StoredEntity => decide (e.sku = k) := by
      funext e
      by_cases he : e.sku = q.sku <;> simp [updRec, he]
    rw [hcomp]
    have hid : ∀ e ∈ st.1.filter (fun e => decide (e.sku = k)),
        (fun x => if x.sku = q.sku then updRec now q x else x) e = id e := by
      intro e he
      have hek : e.sku = k := by simpa using (List.mem_filter.1 he).2
      simp only [id]
      rw [if_neg (fun h : e.sku = q.sku => hq (hek ▸ h.symm))]
    rw [List.map_congr_left hid, List.map_id]
  · have hbr : (upsertOne now st q).1
        = st.1 ++ [(⟨st.2, q.name, q.sku, q.description, true, now, now⟩ :
            StoredEntity)] := by
      simp [upsertOne, hany]
    rw [hbr, List.filter_append]
    simp [hq]

/-- If no pending record writes sku `k`, the rows carrying `k` survive
the whole fold unchanged. -/
theorem filter_sku_foldl (now : Nat) (k : String) :
    ∀ (ops : List Record) (st : List StoredEntity × Nat),
      (∀ r ∈ ops, r.sku ≠ k) →
      ((ops.foldl (upsertOne now) st).1.filter (fun e => e.sku = k))
        = st.1.filter (fun e => e.sku = k)
  | [], _, _ => rfl
  | q :: rest, st, h => by
    have hq : q.sku ≠ k := h q (by simp)
    have hrest : ∀ r ∈ rest, r.sku ≠ k := fun r hr => h r (by simp [hr])
    show ((rest.foldl (upsertOne now) (upsertOne now st q)).1.filter _) = _
    rw [filter_sku_foldl now k rest (upsertOne now st q) hrest,
      filter_sku_upsertOne now st q k hq]

/-- Right after an upsert for `q`, every stored row carrying `q.sku` has
`q`'s name and description. -/
theorem upsertOne_values (now : Nat) (st : List StoredEntity × Nat)
    (q : Record) (e : StoredEntity) (he : e ∈ (upsertOne now st q).1)
    (hek : e.sku = q.sku) :
    e.name = q.name ∧ e.description = q.description := by
  by_cases hany : st.1.any (fun x => x.sku = q.sku)
  · have hbr : (upsertOne now st q).1
        = st.1.map (fun x => if x.sku = q.sku then updRec now q x else x) := by
      simp [upsertOne, hany]
    rw [hbr] at he
    rcases List.mem_map.1 he with ⟨x, hx, hxe⟩
    by_cases hxq : x.sku = q.sku
    · rw [if_pos hxq] at hxe
      rw [← hxe]
      exact ⟨rfl, rfl⟩
    · rw [if_neg hxq] at hxe
      exact absurd (hxe ▸ hek) hxq
  · have hbr : (upsertOne now st q).1
        = st.1 ++ [(⟨st.2, q.name, q.sku, q.description, true, now, now⟩ :
            StoredEntity)] := by
      simp [upsertOne, hany]
    rw [hbr] at he
    rcases List.mem_append.1 he with hl | hr
    · exact absurd (List.any_eq_true.2 ⟨e, hl, by simp [hek]⟩) hany
    · rcases List.mem_singleton.1 hr with rfl
      exact ⟨rfl, rfl⟩

/-- After any fold of upserts, a stored row whose sku has a last pending
write carries exactly that write's name and description. -/
theorem foldl_upsertOne_lastWrite (now : Nat) :
    ∀ (ops : List Record) (st : List StoredEntity × Nat) (e : StoredEntity),
      e ∈ (ops.foldl (upsertOne now) st).1 →
      ∀ p, lastWrite ops e.sku = some p →
        e.name = p.name ∧ e.description = p.description
  | [], _, _, _, _, hlw => by cases hlw
  | q :: rest, st, e, he, p, hlw => by
    have hunfold : lastWrite (q :: rest) e.sku = match lastWrite rest e.sku with
        | some p' => some p'
        | none => if q.sku = e.sku then some q else none := rfl
    rw [hunfold] at hlw
    cases hrest : lastWrite rest e.sku with
    | some p' =>
      rw [hrest] at hlw
      cases hlw
      exact foldl_upsertOne_lastWrite now rest (upsertOne now st q) e he p hrest
    | none =>
      rw [hrest] at hlw
      by_cases hq : q.sku = e.sku
      · rw [if_pos hq] at hlw
        cases hlw
        have hnw : ∀ r ∈ rest, r.sku ≠ e.sku := lastWrite_eq_none_forall hrest
        have hfe : e ∈ ((rest.foldl (upsertOne now)
            (upsertOne now st q)).1.filter (fun x => x.sku = e.sku)) :=
          List.mem_filter.2 ⟨he, by simp⟩
        rw [filter_sku_foldl now e.sku rest (upsertOne now st q) hnw] at hfe
        exact upsertOne_values now st q e (List.mem_of_mem_filter hfe) hq.symm
      · rw [if_neg hq] at hlw
        cases hlw

end Acme

namespace Acme

theorem containsKey_map_upd (now : Nat) (l : List StoredEntity) (q : Record)
    (k : String) :
    containsKey (l.map (fun x => if x.sku = q.sku then updRec now q x else x)) k
      = containsKey l k := by
  unfold containsKey
  rw [List.any_map]
  congr 1
  funext e
  by_cases he : e.sku = q.sku <;> simp [updRec, he, Function.comp]

theorem applyLast_cons (now : Nat) (q : Record) (rest : List Record)
    (e : StoredEntity) :
    applyLast now rest (if e.sku = q.sku then updRec now q e else e)
      = applyLast now (q :: rest) e := by
  by_cases he : e.sku = q.sku
  · rw [if_pos he]
    show applyLast now rest (updRec now q e) = _
    unfold applyLast
    have hsku : (updRec now q e).sku = e.sku := rfl
    rw [hsku]
    show _ = (match lastWrite (q :: rest) e.sku with
      | some p => updRec now p e | none => e)
    have hunfold : lastWrite (q :: rest) e.sku
        = match lastWrite rest e.sku with
          | some p => some p
          | none => if q.sku = e.sku then some q else none := rfl
    rw [hunfold]
    cases lastWrite rest e.sku with
    | some p => rfl
    | none => rw [if_pos he.symm]
  · rw [if_neg he]
    unfold applyLast
    have hunfold : lastWrite (q :: rest) e.sku
        = match lastWrite rest e.sku with
          | some p => some p
          | none => if q.sku = e.sku then some q else none := rfl
    rw [hunfold]
    cases lastWrite rest e.sku with
    | some p => rfl
    | none => rw [if_neg (fun h => he h.symm)]

/-- When every pending record's sku is already stored, the fold performs
updates only: the table is rewritten pointwise by the last write per key
and the next serial id does not move. -/
theorem foldl_upsertOne_all_present (now : Nat) :
    ∀ (ops : List Record) (st : List StoredEntity × Nat),
      (∀ p ∈ ops, containsKey st.1 p.sku = true) →
      ops.foldl (upsertOne now) st = (st.1.map (applyLast now ops), st.2)
  | [], st, _ => by
    have hmap : st.1.map (applyLast now []) = st.1 := by
      have hid : ∀ e ∈ st.1, applyLast now [] e = id e := fun e _ => rfl
      rw [List.map_congr_left hid, List.map_id]
    rw [hmap]
    rfl
  | q :: rest, st, h => by
    have hq : containsKey st.1 q.sku = true := h q (by simp)
    have hbr : upsertOne now st q
        = (st.1.map (fun x => if x.sku = q.sku then updRec now q x else x),
            st.2) := by
      unfold containsKey at hq
      simp [upsertOne, hq]
    show rest.foldl (upsertOne now) (upsertOne now st q) = _
    rw [hbr]
    have h' : ∀ p ∈ rest,
        containsKey (st.1.map (fun x => if x.sku = q.sku then updRec now q x
          else x)) p.sku = true := by
      intro p hp
      rw [containsKey_map_upd]
      exact h p (by simp [hp])
    rw [foldl_upsertOne_all_present now rest _ h', List.map_map]
    refine Prod.ext ?_ rfl
    show List.map _ st.1 = _
    exact List.map_congr_left (fun e _ => applyLast_cons now q rest e)

/-- Importing the same rows a second time changes no field other than
`updated_at`: same ids, names, skus, descriptions, active flags and
created_at stamps, and the serial counter does not move. -/
theorem importStore_idem (t1 t2 : Nat) (rows : List Row)
    (st : List StoredEntity × Nat) :
    (importStore t2 rows (importStore t1 rows st)).1.map ghost
        = (importStore t1 rows st).1.map ghost ∧
      (importStore t2 rows (importStore t1 rows st)).2
        = (importStore t1 rows st).2 := by
  rw [importStore_eq_foldl t1, importStore_eq_foldl t2]
  have pres : ∀ p ∈ opsOf rows,
      containsKey ((opsOf rows).foldl (upsertOne t1) st).1 p.sku = true :=
    fun p hp => containsKey_foldl_mem t1 (opsOf rows) st p hp
  rw [foldl_upsertOne_all_present t2 (opsOf rows) _ pres]
  refine ⟨?_, rfl⟩
  show (List.map (applyLast t2 (opsOf rows)) _).map ghost = _
  rw [List.map_map]
  refine List.map_congr_left (fun e he => ?_)
  show ghost (applyLast t2 (opsOf rows) e) = ghost e
  unfold applyLast
  cases hlw : lastWrite (opsOf rows) e.sku with
  | none => rfl
  | some p =>
    obtain ⟨hname, hdesc⟩ :=
      foldl_upsertOne_lastWrite t1 (opsOf rows) st e he p hlw
    simp [ghost, updRec, hname, hdesc]

end Acme

namespace Acme

/-! ## The chunk loop on the success path -/

theorem processChunks_success (cancel : Nat → Bool) (now totalRows : Nat)
    (hcancel : ∀ i, cancel i = false) :
    ∀ (chunks : List (List Row)) (k : Nat) (st : List StoredEntity × Nat)
      (imported : Nat) (pub : List Snapshot),
      (processChunks cancel none now totalRows chunks k st imported pub).outcome
          = .success ∧
        (processChunks cancel none now totalRows chunks k st imported pub).store
          = (applyChunks now chunks st).1 ∧
        (processChunks cancel none now totalRows chunks k st imported pub).nextId
          = (applyChunks now chunks st).2 ∧
        (processChunks cancel none now totalRows chunks k st imported pub).imported
          = imported + sumValid chunks
  | [], k, st, imported, pub => by
    simp [processChunks, applyChunks, sumValid]
  | chunk :: rest, k, st, imported, pub => by
    have hnone : (none : Option (Nat × String)).map Prod.fst = none := rfl
    by_cases hbe : (validProducts chunk).isEmpty
    · have hvp : validProducts chunk = [] := List.isEmpty_iff.1 hbe
      have ih := processChunks_success cancel now totalRows hcancel rest (k + 1)
        st imported pub
      have heq : processChunks cancel none now totalRows (chunk :: rest) k st
          imported pub
          = processChunks cancel none now totalRows rest (k + 1) st imported
            pub := by
        simp [processChunks, hcancel k, hbe]
      have happ : applyChunks now (chunk :: rest) st = applyChunks now rest st := by
        simp [applyChunks, hvp, upsertBatch]
      rw [heq, happ]
      refine ⟨ih.1, ih.2.1, ih.2.2.1, ?_⟩
      rw [ih.2.2.2]
      simp [sumValid, hvp]
    · have ih := processChunks_success cancel now totalRows hcancel rest (k + 1)
        (upsertBatch now (validProducts chunk) st)
        (imported + (validProducts chunk).length)
        (if k * chunkSize % 5000 = 0 ∨
            min (k * chunkSize + chunkSize) totalRows = totalRows then
          pub ++ [progressSnap (min (k * chunkSize + chunkSize) totalRows)
            totalRows]
        else pub)
      have heq : processChunks cancel none now totalRows (chunk :: rest) k st
          imported pub
          = processChunks cancel none now totalRows rest (k + 1)
              (upsertBatch now (validProducts chunk) st)
              (imported + (validProducts chunk).length)
              (if k * chunkSize % 5000 = 0 ∨
                  min (k * chunkSize + chunkSize) totalRows = totalRows then
                pub ++ [progressSnap (min (k * chunkSize + chunkSize) totalRows)
                  totalRows]
              else pub) := by
        simp only [processChunks, hcancel k, hnone, Bool.false_eq_true,
          if_false, hbe]
        rfl
      have happ : applyChunks now (chunk :: rest) st
          = applyChunks now rest (upsertBatch now (validProducts chunk) st) := rfl
      rw [heq, happ]
      refine ⟨ih.1, ih.2.1, ih.2.2.1, ?_⟩
      rw [ih.2.2.2]
      simp [sumValid]
      omega

end Acme

namespace Acme

/-- A run with no cancel marker and no error completes: SUCCESS status,
`records_processed = imported_count` (the per-chunk deduplicated valid
row count), `total_records` = parsed row count, and the store effect is
exactly `importStore`. -/
theorem runImport_success (cancel : Nat → Bool) (now : Nat) (rows : List Row)
    (job0 : ImportJob) (s0 : List StoredEntity) (n0 : Nat)
    (hcancel : ∀ i, cancel i = false) :
    (runImport cancel none now rows job0 s0 n0).outcome = .success ∧
      (runImport cancel none now rows job0 s0 n0).job.status = "SUCCESS" ∧
      (runImport cancel none now rows job0 s0 n0).job.total_records
        = rows.length ∧
      (runImport cancel none now rows job0 s0 n0).job.records_processed
        = sumValid (chunkList rows) ∧
      (runImport cancel none now rows job0 s0 n0).store
        = (importStore now rows (s0, n0)).1 ∧
      (runImport cancel none now rows job0 s0 n0).nextId
        = (importStore now rows (s0, n0)).2 ∧
      (runImport cancel none now rows job0 s0 n0).published
        = (processChunks cancel none now rows.length (chunkList rows) 0
            (s0, n0) 0 [initialSnap rows.length]).published
          ++ [successSnap rows.length (sumValid (chunkList rows))] := by
  have hs := processChunks_success cancel now rows.length hcancel
    (chunkList rows) 0 (s0, n0) 0 [initialSnap rows.length]
  simp only [runImport]
  rw [hs.1]
  exact ⟨rfl, rfl, rfl, by simpa using hs.2.2.2, by simpa using hs.2.1,
    by simpa using hs.2.2.1, by rw [hs.2.2.2]; simp⟩

end Acme

namespace Acme

/-- C4: with no interleaving writers, running the import of the same
rows to SUCCESS twice in sequence yields the same set of stored entities
(keyed by uppercased sku) as running it once: both runs succeed, and
after the second run every entity's id, name, sku, description, active
flag and created_at equal their values after the first run (name and
description are the values the second import writes, which coincide);
the serial counter is unchanged, so the second run creates nothing. -/
theorem c4_import_idempotent (cancel : Nat → Bool) (t1 t2 : Nat)
    (rows : List Row) (job0 : ImportJob) (s0 : List StoredEntity) (n0 : Nat)
    (r1 r2 : RunResult)
    (hcancel : ∀ i, cancel i = false)
    (hr1 : r1 = runImport cancel none t1 rows job0 s0 n0)
    (hr2 : r2 = runImport cancel none t2 rows r1.job r1.store r1.nextId) :
    r1.outcome = .success ∧ r2.outcome = .success ∧
      r2.store.map ghost = r1.store.map ghost ∧ r2.nextId = r1.nextId := by
  subst hr1
  subst hr2
  have h1 := runImport_success cancel t1 rows job0 s0 n0 hcancel
  set r1 := runImport cancel none t1 rows job0 s0 n0 with hr1
  have h2 := runImport_success cancel t2 rows r1.job r1.store r1.nextId hcancel
  have hpair : ((r1.store, r1.nextId) : List StoredEntity × Nat)
      = importStore t1 rows (s0, n0) := by
    rw [h1.2.2.2.2.1, h1.2.2.2.2.2.1]
  have hidem := importStore_idem t1 t2 rows (s0, n0)
  refine ⟨h1.1, h2.1, ?_, ?_⟩
  · rw [h2.2.2.2.2.1, hpair, h1.2.2.2.2.1, hidem.1]
  · rw [h2.2.2.2.2.2.1, hpair, h1.2.2.2.2.2.1, hidem.2]

/-- Witness for C4 on a two-row file imported twice over an empty
store. -/
theorem c4_import_idempotent_witness :
    (runImport (fun _ => false) none 3 [⟨"N", "a", "d"⟩, ⟨"M", "b", ""⟩]
        ⟨"PENDING", 0, 0⟩ [] 0).outcome = Outcome.success ∧
      (runImport (fun _ => false) none 7 [⟨"N", "a", "d"⟩, ⟨"M", "b", ""⟩]
          (runImport (fun _ => false) none 3 [⟨"N", "a", "d"⟩, ⟨"M", "b", ""⟩]
            ⟨"PENDING", 0, 0⟩ [] 0).job
          (runImport (fun _ => false) none 3 [⟨"N", "a", "d"⟩, ⟨"M", "b", ""⟩]
            ⟨"PENDING", 0, 0⟩ [] 0).store
          (runImport (fun _ => false) none 3 [⟨"N", "a", "d"⟩, ⟨"M", "b", ""⟩]
            ⟨"PENDING", 0, 0⟩ [] 0).nextId).outcome = Outcome.success ∧
      (runImport (fun _ => false) none 7 [⟨"N", "a", "d"⟩, ⟨"M", "b", ""⟩]
          (runImport (fun _ => false) none 3 [⟨"N", "a", "d"⟩, ⟨"M", "b", ""⟩]
            ⟨"PENDING", 0, 0⟩ [] 0).job
          (runImport (fun _ => false) none 3 [⟨"N", "a", "d"⟩, ⟨"M", "b", ""⟩]
            ⟨"PENDING", 0, 0⟩ [] 0).store
          (runImport (fun _ => false) none 3 [⟨"N", "a", "d"⟩, ⟨"M", "b", ""⟩]
            ⟨"PENDING", 0, 0⟩ [] 0).nextId).store.map ghost
        = (runImport (fun _ => false) none 3 [⟨"N", "a", "d"⟩, ⟨"M", "b", ""⟩]
            ⟨"PENDING", 0, 0⟩ [] 0).store.map ghost ∧
      (runImport (fun _ => false) none 7 [⟨"N", "a", "d"⟩, ⟨"M", "b", ""⟩]
          (runImport (fun _ => false) none 3 [⟨"N", "a", "d"⟩, ⟨"M", "b", ""⟩]
            ⟨"PENDING", 0, 0⟩ [] 0).job
          (runImport (fun _ => false) none 3 [⟨"N", "a", "d"⟩, ⟨"M", "b", ""⟩]
            ⟨"PENDING", 0, 0⟩ [] 0).store
          (runImport (fun _ => false) none 3 [⟨"N", "a", "d"⟩, ⟨"M", "b", ""⟩]
            ⟨"PENDING", 0, 0⟩ [] 0).nextId).nextId
        = (runImport (fun _ => false) none 3 [⟨"N", "a", "d"⟩, ⟨"M", "b", ""⟩]
            ⟨"PENDING", 0, 0⟩ [] 0).nextId :=
  c4_import_idempotent (fun _ => false) 3 7 [⟨"N", "a", "d"⟩, ⟨"M", "b", ""⟩]
    ⟨"PENDING", 0, 0⟩ [] 0 _ _ (fun _ => rfl) rfl rfl

/-- C2: a row whose trimmed name or trimmed key is empty is silently
dropped — removing it from any position of its chunk changes nothing
about the records collected for upsert (so it creates or updates no
stored entity and adds nothing to the imported count); the run still
ends SUCCESS (no error), yet `total_records` counts the dropped row. -/
theorem c2_invalid_row_dropped (row : Row) (hrow : parseRow row = none) :
    (∀ (c1 c2 : List Row) (seen : List String),
        collectValid (c1 ++ row :: c2) seen = collectValid (c1 ++ c2) seen) ∧
      ∀ (cancel : Nat → Bool) (now : Nat) (pre post : List Row)
        (job0 : ImportJob) (s0 : List StoredEntity) (n0 : Nat),
        (∀ i, cancel i = false) →
        (runImport cancel none now (pre ++ row :: post) job0 s0 n0).job.status
            = "SUCCESS" ∧
          (runImport cancel none now
              (pre ++ row :: post) job0 s0 n0).job.total_records
            = pre.length + post.length + 1 := by
  refine ⟨?_, ?_⟩
  · intro c1
    induction c1 with
    | nil =>
      intro c2 seen
      simp [collectValid, hrow]
    | cons r rest ih =>
      intro c2 seen
      simp only [List.cons_append, collectValid]
      cases parseRow r with
      | none => exact ih c2 seen
      | some q =>
        by_cases hq : q.sku ∈ seen
        · simp only [if_pos hq]
          exact ih c2 seen
        · simp only [if_neg hq]
          exact congrArg (List.cons q) (ih c2 (q.sku :: seen))
  · intro cancel now pre post job0 s0 n0 hcancel
    have h := runImport_success cancel now (pre ++ row :: post) job0 s0 n0
      hcancel
    refine ⟨h.2.1, ?_⟩
    rw [h.2.2.1]
    simp only [List.length_append, List.length_cons]
    omega

/-- Witness for C2: a row with a blank name among two valid rows. -/
theorem c2_invalid_row_dropped_witness :
    collectValid ([(⟨"N", "S", ""⟩ : Row)] ++ (⟨" ", "K", ""⟩ : Row)
          :: [⟨"M", "T", ""⟩]) []
        = collectValid ([(⟨"N", "S", ""⟩ : Row)] ++ [⟨"M", "T", ""⟩]) [] ∧
      (runImport (fun _ => false) none 0
          ([(⟨"N", "S", ""⟩ : Row)] ++ (⟨" ", "K", ""⟩ : Row)
            :: [⟨"M", "T", ""⟩]) ⟨"PENDING", 0, 0⟩ [] 0).job.status
        = "SUCCESS" ∧
      (runImport (fun _ => false) none 0
          ([(⟨"N", "S", ""⟩ : Row)] ++ (⟨" ", "K", ""⟩ : Row)
            :: [⟨"M", "T", ""⟩]) ⟨"PENDING", 0, 0⟩ [] 0).job.total_records
        = 3 := by
  have h := c2_invalid_row_dropped ⟨" ", "K", ""⟩ (by decide)
  have h2 := h.2 (fun _ => false) 0 [⟨"N", "S", ""⟩] [⟨"M", "T", ""⟩]
    ⟨"PENDING", 0, 0⟩ [] 0 (fun _ => rfl)
  exact ⟨h.1 [⟨"N", "S", ""⟩] [⟨"M", "T", ""⟩] [], h2.1, h2.2⟩

end Acme

namespace Acme

/-! ## The chunk loop under cancellation and failure -/

theorem processChunks_cancel (cancel : Nat → Bool) (now totalRows : Nat) :
    ∀ (m : Nat) (chunks : List (List Row)) (kStart : Nat)
      (st : List StoredEntity × Nat) (imported : Nat) (pub : List Snapshot),
      (∀ j, j < m → cancel (kStart + j) = false) →
      cancel (kStart + m) = true →
      m < chunks.length →
      (processChunks cancel none now totalRows chunks kStart st imported
          pub).outcome = .cancelled ∧
        (processChunks cancel none now totalRows chunks kStart st imported
            pub).store = (applyChunks now (chunks.take m) st).1 ∧
        (processChunks cancel none now totalRows chunks kStart st imported
            pub).nextId = (applyChunks now (chunks.take m) st).2 ∧
        (processChunks cancel none now totalRows chunks kStart st imported
            pub).published.getLast?
          = some (cancelSnap ((kStart + m) * chunkSize) totalRows)
  | 0, chunks, kStart, st, imported, pub => by
    intro _ hafter hlen
    match chunks with
    | [] => exact absurd hlen (by simp)
    | chunk :: rest =>
      have hc : cancel kStart = true := by simpa using hafter
      refine ⟨?_, ?_, ?_, ?_⟩ <;>
        simp [processChunks, hc, applyChunks, List.getLast?_concat]
  | m + 1, chunks, kStart, st, imported, pub => by
    intro hbefore hafter hlen
    match chunks with
    | [] => exact absurd hlen (by simp)
    | chunk :: rest =>
      have hc : cancel kStart = false := by simpa using hbefore 0 (by omega)
      have hnone : (none : Option (Nat × String)).map Prod.fst = none := rfl
      have hb' : ∀ j, j < m → cancel (kStart + 1 + j) = false := by
        intro j hj
        have := hbefore (j + 1) (by omega)
        simpa [Nat.add_assoc, Nat.add_comm 1 j] using this
      have ha' : cancel (kStart + 1 + m) = true := by
        have h1 : kStart + 1 + m = kStart + (m + 1) := by omega
        rw [h1]
        exact hafter
      have hlen' : m < rest.length := by simpa using Nat.lt_of_succ_lt_succ hlen
      have hshift : kStart + 1 + m = kStart + (m + 1) := by omega
      by_cases hbe : (validProducts chunk).isEmpty
      · have hvp : validProducts chunk = [] := List.isEmpty_iff.1 hbe
        have ih := processChunks_cancel cancel now totalRows m rest (kStart + 1)
          st imported pub hb' ha' hlen'
        have heq : processChunks cancel none now totalRows (chunk :: rest)
            kStart st imported pub
            = processChunks cancel none now totalRows rest (kStart + 1) st
              imported pub := by
          simp [processChunks, hc, hbe]
        have happ : applyChunks now ((chunk :: rest).take (m + 1)) st
            = applyChunks now (rest.take m) st := by
          simp [applyChunks, hvp, upsertBatch]
        rw [heq, happ]
        rw [hshift] at ih
        exact ih
      · have ih := processChunks_cancel cancel now totalRows m rest (kStart + 1)
          (upsertBatch now (validProducts chunk) st)
          (imported + (validProducts chunk).length)
          (if kStart * chunkSize % 5000 = 0 ∨
              min (kStart * chunkSize + chunkSize) totalRows = totalRows then
            pub ++ [progressSnap (min (kStart * chunkSize + chunkSize)
              totalRows) totalRows]
          else pub) hb' ha' hlen'
        have heq : processChunks cancel none now totalRows (chunk :: rest)
            kStart st imported pub
            = processChunks cancel none now totalRows rest (kStart + 1)
              (upsertBatch now (validProducts chunk) st)
              (imported + (validProducts chunk).length)
              (if kStart * chunkSize % 5000 = 0 ∨
                  min (kStart * chunkSize + chunkSize) totalRows
                    = totalRows then
                pub ++ [progressSnap (min (kStart * chunkSize + chunkSize)
                  totalRows) totalRows]
              else pub) := by
          simp only [processChunks, hc, hnone, Bool.false_eq_true, if_false,
            hbe]
          rfl
        have happ : applyChunks now ((chunk :: rest).take (m + 1)) st
            = applyChunks now (rest.take m)
              (upsertBatch now (validProducts chunk) st) := rfl
        rw [heq, happ]
        rw [hshift] at ih
        exact ih

end Acme

namespace Acme

theorem processChunks_fail (cancel : Nat → Bool) (now totalRows : Nat)
    (msg : String) (hcancel : ∀ i, cancel i = false) :
    ∀ (m : Nat) (chunks : List (List Row)) (kStart : Nat)
      (st : List StoredEntity × Nat) (imported : Nat) (pub : List Snapshot),
      m < chunks.length →
      (processChunks cancel (some (kStart + m, msg)) now totalRows chunks
          kStart st imported pub).outcome = .failed ∧
        (processChunks cancel (some (kStart + m, msg)) now totalRows chunks
            kStart st imported pub).store
          = (applyChunks now (chunks.take m) st).1 ∧
        (processChunks cancel (some (kStart + m, msg)) now totalRows chunks
            kStart st imported pub).nextId
          = (applyChunks now (chunks.take m) st).2
  | 0, chunks, kStart, st, imported, pub => by
    intro hlen
    match chunks with
    | [] => exact absurd hlen (by simp)
    | chunk :: rest =>
      refine ⟨?_, ?_, ?_⟩ <;>
        simp [processChunks, hcancel kStart, applyChunks]
  | m + 1, chunks, kStart, st, imported, pub => by
    intro hlen
    match chunks with
    | [] => exact absurd hlen (by simp)
    | chunk :: rest =>
      have hne : ¬ ((some (kStart + (m + 1), msg) :
          Option (Nat × String)).map Prod.fst = some kStart) := by
        intro h
        simp at h
      have hlen' : m < rest.length := by simpa using Nat.lt_of_succ_lt_succ hlen
      have hshift : kStart + 1 + m = kStart + (m + 1) := by omega
      have ih := processChunks_fail cancel now totalRows msg hcancel m rest
        (kStart + 1) (upsertBatch now (validProducts chunk) st)
        (imported + (validProducts chunk).length)
        (if kStart * chunkSize % 5000 = 0 ∨
            min (kStart * chunkSize + chunkSize) totalRows = totalRows then
          pub ++ [progressSnap (min (kStart * chunkSize + chunkSize)
            totalRows) totalRows]
        else pub) hlen'
      have ihe := processChunks_fail cancel now totalRows msg hcancel m rest
        (kStart + 1) st imported pub hlen'
      rw [hshift] at ih ihe
      by_cases hbe : (validProducts chunk).isEmpty
      · have hvp : validProducts chunk = [] := List.isEmpty_iff.1 hbe
        have heq : processChunks cancel (some (kStart + (m + 1), msg)) now
            totalRows (chunk :: rest) kStart st imported pub
            = processChunks cancel (some (kStart + (m + 1), msg)) now totalRows
              rest (kStart + 1) st imported pub := by
          simp [processChunks, hcancel kStart, hne, hbe]
        have happ : applyChunks now ((chunk :: rest).take (m + 1)) st
            = applyChunks now (rest.take m) st := by
          simp [applyChunks, hvp, upsertBatch]
        rw [heq, happ]
        exact ihe
      · have heq : processChunks cancel (some (kStart + (m + 1), msg)) now
            totalRows (chunk :: rest) kStart st imported pub
            = processChunks cancel (some (kStart + (m + 1), msg)) now totalRows
              rest (kStart + 1) (upsertBatch now (validProducts chunk) st)
              (imported + (validProducts chunk).length)
              (if kStart * chunkSize % 5000 = 0 ∨
                  min (kStart * chunkSize + chunkSize) totalRows
                    = totalRows then
                pub ++ [progressSnap (min (kStart * chunkSize + chunkSize)
                  totalRows) totalRows]
              else pub) := by
          simp only [processChunks, hcancel kStart, Bool.false_eq_true,
            if_false, if_neg hne, hbe]
        have happ : applyChunks now ((chunk :: rest).take (m + 1)) st
            = applyChunks now (rest.take m)
              (upsertBatch now (validProducts chunk) st) := rfl
        rw [heq, happ]
        exact ih

end Acme

namespace Acme

theorem lt_chunkList_length : ∀ (i : Nat) (rows : List Row),
    i * chunkSize < rows.length → i < (chunkList rows).length
  | 0, rows, h => by
    have hne : rows ≠ [] := by
      intro hnil
      rw [hnil] at h
      simp at h
    rw [chunkList, dif_neg hne]
    simp
  | i + 1, rows, h => by
    have hne : rows ≠ [] := by
      intro hnil
      rw [hnil] at h
      simp at h
    have hdrop : i * chunkSize < (rows.drop chunkSize).length := by
      rw [List.length_drop]
      have hcs : chunkSize = 1000 := rfl
      rw [hcs] at h ⊢
      omega
    have := lt_chunkList_length i (rows.drop chunkSize) hdrop
    rw [chunkList, dif_neg hne]
    simpa using this

/-- C6: if the cancel marker is absent at boundaries 0..k but present
from boundary k+1 on (it was set while chunk k was executing) and chunk
k+1 exists, the run ends CANCELLED: exactly chunks 0..k are applied to
the store and chunks k+1..n never execute; the terminal published
snapshot is the CANCELLED one with `current` = the rows of the completed
chunks and `total` = the parsed row count; and the next status poll that
reads this snapshot writes CANCELLED with those counters into the
durable job row. -/
theorem c6_cancellation (cancel : Nat → Bool) (now : Nat) (rows : List Row)
    (job0 : ImportJob) (s0 : List StoredEntity) (n0 : Nat) (k : Nat)
    (hk : (k + 1) * chunkSize < rows.length)
    (hbefore : ∀ j, j ≤ k → cancel j = false)
    (hafter : cancel (k + 1) = true) :
    (runImport cancel none now rows job0 s0 n0).outcome = .cancelled ∧
      (runImport cancel none now rows job0 s0 n0).store
        = (applyChunks now ((chunkList rows).take (k + 1)) (s0, n0)).1 ∧
      (runImport cancel none now rows job0 s0 n0).nextId
        = (applyChunks now ((chunkList rows).take (k + 1)) (s0, n0)).2 ∧
      (runImport cancel none now rows job0 s0 n0).published.getLast?
        = some (cancelSnap ((k + 1) * chunkSize) rows.length) ∧
      (getTaskStatus
          (some (cancelSnap ((k + 1) * chunkSize) rows.length))
          (some (runImport cancel none now rows job0 s0 n0).job)).2
        = some ⟨"CANCELLED", (k + 1) * chunkSize, rows.length⟩ := by
  have hlen : k + 1 < (chunkList rows).length :=
    lt_chunkList_length (k + 1) rows hk
  have hc := processChunks_cancel cancel now rows.length (k + 1)
    (chunkList rows) 0 (s0, n0) 0 [initialSnap rows.length]
    (fun j hj => by simpa using hbefore j (by omega))
    (by simpa using hafter) hlen
  simp only [runImport]
  rw [hc.1]
  refine ⟨rfl, by simpa using hc.2.1, by simpa using hc.2.2.1,
    by simpa using hc.2.2.2, ?_⟩
  simp [getTaskStatus, cancelSnap]

/-- Witness for C6: 1001 identical rows, marker set from boundary 1 on
(while chunk 0 runs): the run cancels after chunk 0 with current 1000 of
1001, and the poll marks the job CANCELLED. -/
theorem c6_cancellation_witness :
    (runImport (fun j => decide (1 ≤ j)) none 0
        (List.replicate 1001 (⟨"N", "S", ""⟩ : Row))
        ⟨"PENDING", 0, 0⟩ [] 0).outcome = .cancelled ∧
      (runImport (fun j => decide (1 ≤ j)) none 0
          (List.replicate 1001 (⟨"N", "S", ""⟩ : Row))
          ⟨"PENDING", 0, 0⟩ [] 0).store
        = (applyChunks 0 ((chunkList
            (List.replicate 1001 (⟨"N", "S", ""⟩ : Row))).take (0 + 1))
            ([], 0)).1 ∧
      (runImport (fun j => decide (1 ≤ j)) none 0
          (List.replicate 1001 (⟨"N", "S", ""⟩ : Row))
          ⟨"PENDING", 0, 0⟩ [] 0).nextId
        = (applyChunks 0 ((chunkList
            (List.replicate 1001 (⟨"N", "S", ""⟩ : Row))).take (0 + 1))
            ([], 0)).2 ∧
      (runImport (fun j => decide (1 ≤ j)) none 0
          (List.replicate 1001 (⟨"N", "S", ""⟩ : Row))
          ⟨"PENDING", 0, 0⟩ [] 0).published.getLast?
        = some (cancelSnap ((0 + 1) * chunkSize)
            (List.replicate 1001 (⟨"N", "S", ""⟩ : Row)).length) ∧
      (getTaskStatus
          (some (cancelSnap ((0 + 1) * chunkSize)
            (List.replicate 1001 (⟨"N", "S", ""⟩ : Row)).length))
          (some (runImport (fun j => decide (1 ≤ j)) none 0
            (List.replicate 1001 (⟨"N", "S", ""⟩ : Row))
            ⟨"PENDING", 0, 0⟩ [] 0).job)).2
        = some ⟨"CANCELLED", (0 + 1) * chunkSize,
            (List.replicate 1001 (⟨"N", "S", ""⟩ : Row)).length⟩ :=
  c6_cancellation (fun j => decide (1 ≤ j)) 0
    (List.replicate 1001 (⟨"N", "S", ""⟩ : Row)) ⟨"PENDING", 0, 0⟩ [] 0 0
    (by rw [List.length_replicate]; norm_num [chunkSize])
    (by decide)
    (by decide)

end Acme

namespace Acme

/-- C7: an unhandled error while chunk j is being processed (e.g. the
batch write failing) makes the run end FAILURE: the job row is marked
FAILURE (its total_records kept), the terminal published snapshot is the
FAILURE one carrying the error message, processing stops with exactly
the prior chunks 0..j-1 committed (their writes are not rolled back),
and the run returns normally — `runImport` is a total function, so no
exception reaches the uploader, who already received the task id. -/
theorem c7_failure (cancel : Nat → Bool) (now : Nat) (rows : List Row)
    (job0 : ImportJob) (s0 : List StoredEntity) (n0 : Nat) (j : Nat)
    (msg : String)
    (hcancel : ∀ i, cancel i = false)
    (hj : j * chunkSize < rows.length) :
    (runImport cancel (some (j, msg)) now rows job0 s0 n0).outcome
        = .failed ∧
      (runImport cancel (some (j, msg)) now rows job0 s0 n0).job.status
        = "FAILURE" ∧
      (runImport cancel (some (j, msg)) now rows job0 s0 n0).job.total_records
        = rows.length ∧
      (runImport cancel (some (j, msg)) now rows job0 s0 n0).store
        = (applyChunks now ((chunkList rows).take j) (s0, n0)).1 ∧
      (runImport cancel (some (j, msg)) now rows job0 s0 n0).nextId
        = (applyChunks now ((chunkList rows).take j) (s0, n0)).2 ∧
      (runImport cancel (some (j, msg)) now rows job0 s0 n0).published.getLast?
        = some (failureSnap msg) ∧
      (failureSnap msg).error = some msg := by
  have hlen : j < (chunkList rows).length := lt_chunkList_length j rows hj
  have hf := processChunks_fail cancel now rows.length msg hcancel j
    (chunkList rows) 0 (s0, n0) 0 [initialSnap rows.length] hlen
  rw [Nat.zero_add] at hf
  simp only [runImport]
  rw [hf.1]
  exact ⟨rfl, rfl, rfl, by simpa using hf.2.1, by simpa using hf.2.2,
    by simp, rfl⟩

/-- Witness for C7: one row, failure injected while processing chunk 0:
the store stays empty, the job is FAILURE, the snapshot carries the
message. -/
theorem c7_failure_witness :
    (runImport (fun _ => false) (some (0, "db down")) 0
        [(⟨"N", "S", ""⟩ : Row)] ⟨"PENDING", 0, 0⟩ [] 0).outcome
        = .failed ∧
      (runImport (fun _ => false) (some (0, "db down")) 0
          [(⟨"N", "S", ""⟩ : Row)] ⟨"PENDING", 0, 0⟩ [] 0).job.status
        = "FAILURE" ∧
      (runImport (fun _ => false) (some (0, "db down")) 0
          [(⟨"N", "S", ""⟩ : Row)] ⟨"PENDING", 0, 0⟩ [] 0).job.total_records
        = [(⟨"N", "S", ""⟩ : Row)].length ∧
      (runImport (fun _ => false) (some (0, "db down")) 0
          [(⟨"N", "S", ""⟩ : Row)] ⟨"PENDING", 0, 0⟩ [] 0).store
        = (applyChunks 0 ((chunkList [(⟨"N", "S", ""⟩ : Row)]).take 0)
            ([], 0)).1 ∧
      (runImport (fun _ => false) (some (0, "db down")) 0
          [(⟨"N", "S", ""⟩ : Row)] ⟨"PENDING", 0, 0⟩ [] 0).nextId
        = (applyChunks 0 ((chunkList [(⟨"N", "S", ""⟩ : Row)]).take 0)
            ([], 0)).2 ∧
      (runImport (fun _ => false) (some (0, "db down")) 0
          [(⟨"N", "S", ""⟩ : Row)] ⟨"PENDING", 0, 0⟩ [] 0).published.getLast?
        = some (failureSnap "db down") ∧
      (failureSnap "db down").error = some "db down" :=
  c7_failure (fun _ => false) 0 [(⟨"N", "S", ""⟩ : Row)] ⟨"PENDING", 0, 0⟩
    [] 0 0 "db down" (fun _ => rfl) (by decide)

end Acme

namespace Acme

/-! ## Monotonicity of the published progress counters -/

theorem progressCurrents_append (l₁ l₂ : List Snapshot) :
    progressCurrents (l₁ ++ l₂) = progressCurrents l₁ ++ progressCurrents l₂ := by
  simp [progressCurrents, List.filter_append, List.filterMap_append]

theorem progressCurrents_progressSnap (chunkEnd totalRows : Nat) :
    progressCurrents [progressSnap chunkEnd totalRows] = [chunkEnd] := rfl

theorem processChunks_pairwise (cancel : Nat → Bool)
    (failAt : Option (Nat × String)) (now totalRows : Nat) :
    ∀ (chunks : List (List Row)) (k : Nat) (st : List StoredEntity × Nat)
      (imported : Nat) (pub : List Snapshot),
      (progressCurrents pub).Pairwise (· ≤ ·) →
      (∀ c ∈ progressCurrents pub, c ≤ min (k * chunkSize) totalRows) →
      (progressCurrents (processChunks cancel failAt now totalRows chunks k st
        imported pub).published).Pairwise (· ≤ ·)
  | [], k, st, imported, pub => fun hpw _ => hpw
  | chunk :: rest, k, st, imported, pub => by
    intro hpw hbound
    by_cases hc : cancel k
    · have heq : (processChunks cancel failAt now totalRows (chunk :: rest) k
          st imported pub).published
          = pub ++ [cancelSnap (k * chunkSize) totalRows] := by
        simp [processChunks, hc]
      rw [heq, progressCurrents_append]
      simpa [progressCurrents, cancelSnap] using hpw
    · by_cases hfail : failAt.map Prod.fst = some k
      · have heq : (processChunks cancel failAt now totalRows (chunk :: rest) k
            st imported pub).published = pub := by
          simp [processChunks, hc, hfail]
        rw [heq]
        exact hpw
      · have hmono : ∀ c ∈ progressCurrents pub,
            c ≤ min ((k + 1) * chunkSize) totalRows := by
          intro c hcmem
          exact le_trans (hbound c hcmem)
            (min_le_min (Nat.mul_le_mul_right chunkSize (by omega)) le_rfl)
        by_cases hbe : (validProducts chunk).isEmpty
        · have heq : processChunks cancel failAt now totalRows (chunk :: rest)
              k st imported pub
              = processChunks cancel failAt now totalRows rest (k + 1) st
                imported pub := by
            simp [processChunks, hc, hfail, hbe]
          rw [heq]
          exact processChunks_pairwise cancel failAt now totalRows rest (k + 1)
            st imported pub hpw hmono
        · set pub' := if k * chunkSize % 5000 = 0 ∨
              min (k * chunkSize + chunkSize) totalRows = totalRows then
              pub ++ [progressSnap (min (k * chunkSize + chunkSize) totalRows)
                totalRows]
            else pub with hpub'
          have heq : processChunks cancel failAt now totalRows (chunk :: rest)
              k st imported pub
              = processChunks cancel failAt now totalRows rest (k + 1)
                (upsertBatch now (validProducts chunk) st)
                (imported + (validProducts chunk).length) pub' := by
            simp only [processChunks, hc, hfail, Bool.false_eq_true, if_false,
              if_neg hfail, hbe, hpub']
          have hckend : min (k * chunkSize + chunkSize) totalRows
              ≤ min ((k + 1) * chunkSize) totalRows := by
            have : k * chunkSize + chunkSize = (k + 1) * chunkSize := by ring
            rw [this]
          have hpw' : (progressCurrents pub').Pairwise (· ≤ ·) := by
            rw [hpub']
            by_cases hpubc : k * chunkSize % 5000 = 0 ∨
                min (k * chunkSize + chunkSize) totalRows = totalRows
            · rw [if_pos hpubc, progressCurrents_append,
                progressCurrents_progressSnap]
              rw [List.pairwise_append]
              refine ⟨hpw, List.pairwise_singleton _ _, ?_⟩
              intro a ha b hb
              rw [List.mem_singleton.1 hb]
              exact le_trans (hbound a ha) (min_le_min (by omega) le_rfl)
            · rw [if_neg hpubc]
              exact hpw
          have hbound' : ∀ c ∈ progressCurrents pub',
              c ≤ min ((k + 1) * chunkSize) totalRows := by
            rw [hpub']
            by_cases hpubc : k * chunkSize % 5000 = 0 ∨
                min (k * chunkSize + chunkSize) totalRows = totalRows
            · rw [if_pos hpubc, progressCurrents_append,
                progressCurrents_progressSnap]
              intro c hcmem
              rcases List.mem_append.1 hcmem with hl | hr
              · exact hmono c hl
              · rw [List.mem_singleton.1 hr]
                exact hckend
            · rw [if_neg hpubc]
              exact hmono
          rw [heq]
          exact processChunks_pairwise cancel failAt now totalRows rest (k + 1)
            (upsertBatch now (validProducts chunk) st)
            (imported + (validProducts chunk).length) pub' hpw' hbound'

end Acme

namespace Acme

/-- C8: the `current` counters of the published PROGRESS snapshots — the
values successive progress polls can observe while the job is in
PROGRESS — form a non-decreasing sequence, whatever happens to the run;
and when the run completes, the job is SUCCESS with `records_processed`
equal to the number of valid rows after trimming, dropping invalid rows
and intra-chunk deduplication (the imported count). -/
theorem c8_progress_monotone (cancel : Nat → Bool)
    (failAt : Option (Nat × String)) (now : Nat) (rows : List Row)
    (job0 : ImportJob) (s0 : List StoredEntity) (n0 : Nat) :
    (progressCurrents
        (runImport cancel failAt now rows job0 s0 n0).published).Pairwise
        (· ≤ ·) ∧
      ((∀ i, cancel i = false) → failAt = none →
        (runImport cancel failAt now rows job0 s0 n0).job.status
            = "SUCCESS" ∧
          (runImport cancel failAt now rows job0 s0 n0).job.records_processed
            = sumValid (chunkList rows)) := by
  constructor
  · have hpw0 : (progressCurrents [initialSnap rows.length]).Pairwise
        ((· ≤ ·) : Nat → Nat → Prop) := by
      have : progressCurrents [initialSnap rows.length] = [0] := rfl
      rw [this]
      exact List.pairwise_singleton _ _
    have hbound0 : ∀ c ∈ progressCurrents [initialSnap rows.length],
        c ≤ min (0 * chunkSize) rows.length := by
      have : progressCurrents [initialSnap rows.length] = [0] := rfl
      rw [this]
      intro c hcmem
      rw [List.mem_singleton.1 hcmem]
      exact Nat.zero_le _
    have hpc := processChunks_pairwise cancel failAt now rows.length
      (chunkList rows) 0 (s0, n0) 0 [initialSnap rows.length] hpw0 hbound0
    simp only [runImport]
    cases houtcome : (processChunks cancel failAt now rows.length
        (chunkList rows) 0 (s0, n0) 0 [initialSnap rows.length]).outcome with
    | success =>
      simp only []
      rw [progressCurrents_append]
      have hs : progressCurrents [successSnap rows.length
          (processChunks cancel failAt now rows.length (chunkList rows) 0
            (s0, n0) 0 [initialSnap rows.length]).imported] = [] := rfl
      rw [hs, List.append_nil]
      exact hpc
    | cancelled =>
      exact hpc
    | failed =>
      simp only []
      rw [progressCurrents_append]
      have hs : progressCurrents
          [failureSnap ((failAt.map Prod.snd).getD "")] = [] := rfl
      rw [hs, List.append_nil]
      exact hpc
  · intro hcancel hfa
    subst hfa
    have h := runImport_success cancel now rows job0 s0 n0 hcancel
    exact ⟨h.2.1, h.2.2.2.1⟩

/-- Witness for C8: a two-row file whose keys collide case-insensitively
imports one record: SUCCESS with records_processed = sumValid. -/
theorem c8_progress_monotone_witness :
    (progressCurrents (runImport (fun _ => false) none 0
        [(⟨"N", "a", ""⟩ : Row), ⟨"M", "A", ""⟩]
        ⟨"PENDING", 0, 0⟩ [] 0).published).Pairwise (· ≤ ·) ∧
      (runImport (fun _ => false) none 0
          [(⟨"N", "a", ""⟩ : Row), ⟨"M", "A", ""⟩]
          ⟨"PENDING", 0, 0⟩ [] 0).job.status = "SUCCESS" ∧
      (runImport (fun _ => false) none 0
          [(⟨"N", "a", ""⟩ : Row), ⟨"M", "A", ""⟩]
          ⟨"PENDING", 0, 0⟩ [] 0).job.records_processed
        = sumValid (chunkList [(⟨"N", "a", ""⟩ : Row), ⟨"M", "A", ""⟩]) := by
  have h := c8_progress_monotone (fun _ => false) none 0
    [(⟨"N", "a", ""⟩ : Row), ⟨"M", "A", ""⟩] ⟨"PENDING", 0, 0⟩ [] 0
  exact ⟨h.1, (h.2 (fun _ => rfl) rfl).1, (h.2 (fun _ => rfl) rfl).2⟩

end Acme

namespace Acme

/-! ## The binary64 percent computation -/

theorem natRoundDiv_bounds (a b : Nat) (hb : 0 < b) :
    (a : ℚ) / b - 1 / 2 ≤ (natRoundDiv a b : ℚ) ∧
      (natRoundDiv a b : ℚ) ≤ (a : ℚ) / b + 1 / 2 := by
  have hdm : b * (a / b) + a % b = a := Nat.div_add_mod a b
  have hmlt : a % b < b := Nat.mod_lt a hb
  have hbQ : (0 : ℚ) < b := by exact_mod_cast hb
  have hdmQ : (b : ℚ) * ((a / b : Nat) : ℚ) + ((a % b : Nat) : ℚ) = (a : ℚ) := by
    exact_mod_cast hdm
  have hab : (a : ℚ) / b = ((a / b : Nat) : ℚ) + ((a % b : Nat) : ℚ) / b := by
    rw [div_eq_iff (ne_of_gt hbQ), add_mul,
      div_mul_cancel₀ _ (ne_of_gt hbQ)]
    linarith [hdmQ]
  have hr0 : (0 : ℚ) ≤ ((a % b : Nat) : ℚ) / b := by positivity
  have hr1 : ((a % b : Nat) : ℚ) / b < 1 := by
    rw [div_lt_one hbQ]
    exact_mod_cast hmlt
  unfold natRoundDiv
  by_cases h1 : 2 * (a % b) < b
  · rw [if_pos h1]
    have hhalf : ((a % b : Nat) : ℚ) / b < 1 / 2 := by
      rw [div_lt_div_iff hbQ two_pos]
      calc ((a % b : Nat) : ℚ) * 2 = ((2 * (a % b) : Nat) : ℚ) := by push_cast; ring
        _ < b := by exact_mod_cast h1
        _ = 1 * b := by ring
    constructor <;> linarith [hab]
  · rw [if_neg h1]
    by_cases h2 : b < 2 * (a % b)
    · rw [if_pos h2]
      have hhalf : 1 / 2 < ((a % b : Nat) : ℚ) / b := by
        rw [div_lt_div_iff two_pos hbQ]
        calc (1 : ℚ) * b = b := by ring
          _ < ((2 * (a % b) : Nat) : ℚ) := by exact_mod_cast h2
          _ = ((a % b : Nat) : ℚ) * 2 := by push_cast; ring
      push_cast
      constructor <;> linarith [hab]
    · rw [if_neg h2]
      have heq : 2 * (a % b) = b := by omega
      have hhalf : ((a % b : Nat) : ℚ) / b = 1 / 2 := by
        rw [div_eq_div_iff (ne_of_gt hbQ) (two_ne_zero)]
        calc ((a % b : Nat) : ℚ) * 2 = ((2 * (a % b) : Nat) : ℚ) := by push_cast; ring
          _ = b := by exact_mod_cast heq
          _ = 1 * b := by ring
      by_cases h3 : a / b % 2 = 0
      · rw [if_pos h3]
        constructor <;> linarith [hab]
      · rw [if_neg h3]
        push_cast
        constructor <;> linarith [hab]

theorem normScaleN_val : ∀ (fuel a b : Nat) (e : ℤ), 0 < b →
    0 < (normScaleN fuel a b e).2.1 ∧
      ((normScaleN fuel a b e).1 : ℚ) / ((normScaleN fuel a b e).2.1 : ℚ)
          * 2 ^ (normScaleN fuel a b e).2.2
        = (a : ℚ) / b * 2 ^ e
  | 0, a, b, e, hb => ⟨hb, rfl⟩
  | fuel + 1, a, b, e, hb => by
    simp only [normScaleN]
    by_cases h1 : a < 2 ^ 52 * b
    · rw [if_pos h1]
      have ih := normScaleN_val fuel (2 * a) b (e - 1) hb
      refine ⟨ih.1, ih.2.trans ?_⟩
      have h2e : (2 : ℚ) ^ e = 2 ^ (e - 1) * 2 := by
        rw [← zpow_add_one₀ (two_ne_zero) (e - 1), sub_add_cancel]
      rw [h2e]
      push_cast
      ring
    · rw [if_neg h1]
      by_cases h2 : 2 ^ 53 * b ≤ a
      · rw [if_pos h2]
        have ih := normScaleN_val fuel a (2 * b) (e + 1) (by omega)
        refine ⟨ih.1, ih.2.trans ?_⟩
        have h2e : (2 : ℚ) ^ (e + 1) = 2 ^ e * 2 := zpow_add_one₀ (two_ne_zero) e
        have hbne : ((b : ℚ)) ≠ 0 := by positivity
        rw [h2e]
        push_cast
        field_simp
        ring
      · rw [if_neg h2]
        exact ⟨hb, rfl⟩

theorem normScaleN_bracket_low : ∀ (fuel a b : Nat) (e : ℤ),
    0 < b → a < 2 ^ 53 * b → 2 ^ 52 * b ≤ a * 2 ^ fuel →
    2 ^ 52 * (normScaleN fuel a b e).2.1 ≤ (normScaleN fuel a b e).1 ∧
      (normScaleN fuel a b e).1 < 2 ^ 53 * (normScaleN fuel a b e).2.1
  | 0, a, b, e, hb, hub, hlb => by
    have hlb' : 2 ^ 52 * b ≤ a := by simpa using hlb
    exact ⟨hlb', hub⟩
  | fuel + 1, a, b, e, hb, hub, hlb => by
    by_cases h1 : a < 2 ^ 52 * b
    · have heq : normScaleN (fuel + 1) a b e
          = normScaleN fuel (2 * a) b (e - 1) := by
        simp only [normScaleN]
        rw [if_pos h1]
      rw [heq]
      refine normScaleN_bracket_low fuel (2 * a) b (e - 1) hb ?_ ?_
      · have h53 : (2 : Nat) ^ 53 = 2 * 2 ^ 52 := by norm_num
        omega
      · have hrw : a * 2 ^ (fuel + 1) = 2 * a * 2 ^ fuel := by ring
        omega
    · by_cases h2 : 2 ^ 53 * b ≤ a
      · exact absurd h2 (by omega)
      · have heq : normScaleN (fuel + 1) a b e = (a, b, e) := by
          simp only [normScaleN]
          rw [if_neg h1, if_neg h2]
        rw [heq]
        refine ⟨?_, ?_⟩
        · show 2 ^ 52 * b ≤ a
          omega
        · show a < 2 ^ 53 * b
          omega

theorem normScaleN_bracket_high : ∀ (fuel a b : Nat) (e : ℤ),
    0 < b → 2 ^ 52 * b ≤ a → a < 2 ^ 52 * b * 2 ^ (fuel + 1) →
    2 ^ 52 * (normScaleN fuel a b e).2.1 ≤ (normScaleN fuel a b e).1 ∧
      (normScaleN fuel a b e).1 < 2 ^ 53 * (normScaleN fuel a b e).2.1
  | 0, a, b, e, hb, hlb, hub => by
    refine ⟨hlb, ?_⟩
    show a < 2 ^ 53 * b
    have h53 : (2 : Nat) ^ 53 = 2 * 2 ^ 52 := by norm_num
    have hub' : a < 2 ^ 52 * b * 2 := by simpa [pow_succ] using hub
    omega
  | fuel + 1, a, b, e, hb, hlb, hub => by
    by_cases h1 : a < 2 ^ 52 * b
    · exact absurd hlb (by omega)
    · by_cases h2 : 2 ^ 53 * b ≤ a
      · have heq : normScaleN (fuel + 1) a b e
            = normScaleN fuel a (2 * b) (e + 1) := by
          simp only [normScaleN]
          rw [if_neg h1, if_pos h2]
        rw [heq]
        refine normScaleN_bracket_high fuel a (2 * b) (e + 1) (by omega) ?_ ?_
        · have h53 : (2 : Nat) ^ 53 = 2 * 2 ^ 52 := by norm_num
          omega
        · have hrw : 2 ^ 52 * (2 * b) * 2 ^ (fuel + 1)
              = 2 ^ 52 * b * 2 ^ (fuel + 1 + 1) := by ring
          omega
      · have heq : normScaleN (fuel + 1) a b e = (a, b, e) := by
          simp only [normScaleN]
          rw [if_neg h1, if_neg h2]
        rw [heq]
        refine ⟨hlb, ?_⟩
        show a < 2 ^ 53 * b
        omega

/-- `findShift` returns the least shift `k ≥ k0` with `M < 2^(53+k)`,
given enough fuel; unless it returns `k0` itself, `M` also needs at
least `53 + k` bits. -/
theorem findShift_spec : ∀ (fuel M k0 : Nat), M < 2 ^ (53 + k0 + fuel) →
    M < 2 ^ (53 + findShift fuel M k0) ∧
      (findShift fuel M k0 = k0 ∨ 2 ^ (52 + findShift fuel M k0) ≤ M)
  | 0, M, k0, h => ⟨h, Or.inl rfl⟩
  | fuel + 1, M, k0, h => by
    simp only [findShift]
    by_cases hM : M < 2 ^ (53 + k0)
    · rw [if_pos hM]
      exact ⟨hM, Or.inl rfl⟩
    · rw [if_neg hM]
      have h' : M < 2 ^ (53 + (k0 + 1) + fuel) := by
        have he : 53 + (k0 + 1) + fuel = 53 + k0 + (fuel + 1) := by omega
        rw [he]
        exact h
      have ih := findShift_spec fuel M (k0 + 1) h'
      refine ⟨ih.1, Or.inr ?_⟩
      rcases ih.2 with heq | hle
      · rw [heq]
        have he : 52 + (k0 + 1) = 53 + k0 := by omega
        rw [he]
        exact Nat.le_of_not_lt hM
      · exact hle

/-- The binary64 quotient of two positive counters within range: the
mantissa is a full 53-bit significand and the float value is within one
part in `2^53` of the exact quotient. -/
theorem b64Div_spec (p t : Nat) (hp : 0 < p) (ht : 0 < t)
    (hlo : t ≤ 2 ^ 1000 * p) (hhi : p ≤ 2 ^ 60 * t) :
    2 ^ 52 ≤ (b64Div p t).1 ∧ (b64Div p t).1 ≤ 2 ^ 53 ∧
      ((p : ℚ) / t - (p : ℚ) / t / 2 ^ 53 ≤ b64Val (b64Div p t) ∧
        b64Val (b64Div p t) ≤ (p : ℚ) / t + (p : ℚ) / t / 2 ^ 53) := by
  rcases hsE : normScaleN b64Fuel p t 0 with ⟨m, sb, se⟩
  have hbr0 : 2 ^ 52 * (normScaleN b64Fuel p t 0).2.1
        ≤ (normScaleN b64Fuel p t 0).1 ∧
      (normScaleN b64Fuel p t 0).1 < 2 ^ 53 * (normScaleN b64Fuel p t 0).2.1 := by
    by_cases hcase : p < 2 ^ 53 * t
    · refine normScaleN_bracket_low b64Fuel p t 0 ht hcase ?_
      show 2 ^ 52 * t ≤ p * 2 ^ 2200
      omega
    · push_neg at hcase
      refine normScaleN_bracket_high b64Fuel p t 0 ht (by omega) ?_
      show p < 2 ^ 52 * t * 2 ^ 2201
      omega
  rw [hsE] at hbr0
  dsimp only at hbr0
  have hval0 := normScaleN_val b64Fuel p t 0 ht
  rw [hsE] at hval0
  dsimp only at hval0
  obtain ⟨hsbpos, hid⟩ := hval0
  rw [zpow_zero, mul_one] at hid
  have hsbQ : (0 : ℚ) < sb := by exact_mod_cast hsbpos
  have htQ : (0 : ℚ) < t := by exact_mod_cast ht
  have hEpos : (0 : ℚ) < (2 : ℚ) ^ se := zpow_pos (by norm_num) se
  have hd52 : (2 : ℚ) ^ 52 ≤ (m : ℚ) / sb := by
    rw [le_div_iff hsbQ]
    exact_mod_cast hbr0.1
  have hd53 : (m : ℚ) / sb < (2 : ℚ) ^ 53 := by
    rw [div_lt_iff hsbQ]
    exact_mod_cast hbr0.2
  have hexp : (-1074 : ℤ) ≤ se := by
    by_contra hcon
    push_neg at hcon
    have hq1 : (1 : ℚ) ≤ 2 ^ 1000 * ((p : ℚ) / t) := by
      rw [← mul_div_assoc, le_div_iff htQ, one_mul]
      exact_mod_cast hlo
    have hlt : (p : ℚ) / t < 2 ^ 53 * (2 : ℚ) ^ se := by
      rw [← hid]
      exact mul_lt_mul_of_pos_right hd53 hEpos
    have h2 : (1 : ℚ) ≤ 2 ^ 1000 * (2 ^ 53 * (2 : ℚ) ^ se) := by
      calc (1 : ℚ) ≤ 2 ^ 1000 * ((p : ℚ) / t) := hq1
        _ ≤ 2 ^ 1000 * (2 ^ 53 * (2 : ℚ) ^ se) :=
          mul_le_mul_of_nonneg_left (le_of_lt hlt) (by positivity)
    have h3 : (2 : ℚ) ^ 1000 * (2 ^ 53 * (2 : ℚ) ^ se)
        = (2 : ℚ) ^ (se + 1053) := by
      rw [show ((2 : ℚ) ^ 53) = (2 : ℚ) ^ (53 : ℤ) from (zpow_natCast 2 53).symm,
        show ((2 : ℚ) ^ 1000) = (2 : ℚ) ^ (1000 : ℤ) from
          (zpow_natCast 2 1000).symm,
        ← zpow_add₀ (two_ne_zero : (2 : ℚ) ≠ 0),
        ← zpow_add₀ (two_ne_zero : (2 : ℚ) ≠ 0)]
      congr 1
      omega
    rw [h3] at h2
    have h4 : (2 : ℚ) ^ (se + 1053) < (2 : ℚ) ^ (0 : ℤ) :=
      (zpow_lt_zpow_iff_right₀ (by norm_num : (1 : ℚ) < 2)).mpr (by omega)
    rw [zpow_zero] at h4
    linarith
  have hne : ¬(p = 0 ∨ t = 0) := by omega
  have hmax : max se (-1074 : ℤ) = se := max_eq_left hexp
  have hdiv : b64Div p t = (natRoundDiv m sb, se) := by
    unfold b64Div
    rw [if_neg hne, hsE]
    simp [hmax]
  rw [hdiv]
  dsimp only
  have hrd := natRoundDiv_bounds m sb hsbpos
  have hlow : 2 ^ 52 ≤ natRoundDiv m sb := by
    by_contra hc
    push_neg at hc
    have hc' : natRoundDiv m sb + 1 ≤ 2 ^ 52 := hc
    have hcQ : ((natRoundDiv m sb : ℚ)) + 1 ≤ (2 : ℚ) ^ 52 := by
      exact_mod_cast hc'
    linarith [hrd.1, hd52]
  have hhigh : natRoundDiv m sb ≤ 2 ^ 53 := by
    by_contra hc
    push_neg at hc
    have hc' : 2 ^ 53 + 1 ≤ natRoundDiv m sb := hc
    have hcQ : (2 : ℚ) ^ 53 + 1 ≤ ((natRoundDiv m sb : ℚ)) := by
      exact_mod_cast hc'
    linarith [hrd.2, hd53]
  have hv : b64Val (natRoundDiv m sb, se)
      = (natRoundDiv m sb : ℚ) * (2 : ℚ) ^ se := rfl
  refine ⟨hlow, hhigh, ?_, ?_⟩
  · rw [hv, ← hid]
    have hm1 : ((m : ℚ) / sb - 1 / 2) * (2 : ℚ) ^ se
        ≤ (natRoundDiv m sb : ℚ) * (2 : ℚ) ^ se :=
      mul_le_mul_of_nonneg_right hrd.1 (le_of_lt hEpos)
    have key : 0 ≤ ((m : ℚ) / sb / 2 ^ 53 - 1 / 2) * (2 : ℚ) ^ se :=
      mul_nonneg (by linarith [hd52]) (le_of_lt hEpos)
    linarith [hm1, key]
  · rw [hv, ← hid]
    have hm2 : (natRoundDiv m sb : ℚ) * (2 : ℚ) ^ se
        ≤ ((m : ℚ) / sb + 1 / 2) * (2 : ℚ) ^ se :=
      mul_le_mul_of_nonneg_right hrd.2 (le_of_lt hEpos)
    have key : 0 ≤ ((m : ℚ) / sb / 2 ^ 53 - 1 / 2) * (2 : ℚ) ^ se :=
      mul_nonneg (by linarith [hd52]) (le_of_lt hEpos)
    linarith [hm2, key]

/-- Binary64 multiplication by 100 of a float with a full significand
changes the value by at most one part in `2^53`. -/
theorem b64Mul100_spec (me : Nat × ℤ) (hlo : 2 ^ 52 ≤ me.1)
    (hhi : me.1 ≤ 2 ^ 53) :
    b64Val me * 100 - b64Val me * 100 / 2 ^ 53 ≤ b64Val (b64Mul100 me) ∧
      b64Val (b64Mul100 me) ≤ b64Val me * 100 + b64Val me * 100 / 2 ^ 53 := by
  obtain ⟨m, e⟩ := me
  dsimp only at hlo hhi
  have hfs := findShift_spec 64 (100 * m) 0 (by omega)
  obtain ⟨hMk, hk2⟩ := hfs
  have h52 : 2 ^ (52 + findShift 64 (100 * m) 0) ≤ 100 * m := by
    rcases hk2 with h0 | h
    · rw [h0]
      omega
    · exact h
  set k := findShift 64 (100 * m) 0 with hk
  have hmul : b64Mul100 (m, e) = (natRoundDiv (100 * m) (2 ^ k), e + k) := by
    rw [hk]
    rfl
  have hrd := natRoundDiv_bounds (100 * m) (2 ^ k) (by positivity)
  have hEpos : (0 : ℚ) < (2 : ℚ) ^ e := zpow_pos (by norm_num) e
  have hKpos : (0 : ℚ) < ((2 ^ k : ℕ) : ℚ) := by positivity
  have hKne : ((2 ^ k : ℕ) : ℚ) ≠ 0 := ne_of_gt hKpos
  have hval : b64Val (natRoundDiv (100 * m) (2 ^ k), e + k)
      = (natRoundDiv (100 * m) (2 ^ k) : ℚ)
          * ((2 : ℚ) ^ e * ((2 ^ k : ℕ) : ℚ)) := by
    show (natRoundDiv (100 * m) (2 ^ k) : ℚ) * (2 : ℚ) ^ (e + (k : ℤ)) = _
    rw [zpow_add₀ (two_ne_zero : (2 : ℚ) ≠ 0), zpow_natCast]
    push_cast
    ring
  have hbm : b64Val (m, e) = (m : ℚ) * (2 : ℚ) ^ e := rfl
  rw [hmul, hval, hbm]
  have hm1 : (((100 * m : ℕ) : ℚ) / ((2 ^ k : ℕ) : ℚ) - 1 / 2)
        * ((2 : ℚ) ^ e * ((2 ^ k : ℕ) : ℚ))
      ≤ (natRoundDiv (100 * m) (2 ^ k) : ℚ)
          * ((2 : ℚ) ^ e * ((2 ^ k : ℕ) : ℚ)) :=
    mul_le_mul_of_nonneg_right hrd.1 (le_of_lt (mul_pos hEpos hKpos))
  have hm2 : (natRoundDiv (100 * m) (2 ^ k) : ℚ)
        * ((2 : ℚ) ^ e * ((2 ^ k : ℕ) : ℚ))
      ≤ (((100 * m : ℕ) : ℚ) / ((2 ^ k : ℕ) : ℚ) + 1 / 2)
          * ((2 : ℚ) ^ e * ((2 ^ k : ℕ) : ℚ)) :=
    mul_le_mul_of_nonneg_right hrd.2 (le_of_lt (mul_pos hEpos hKpos))
  have hexp1 : (((100 * m : ℕ) : ℚ) / ((2 ^ k : ℕ) : ℚ) - 1 / 2)
        * ((2 : ℚ) ^ e * ((2 ^ k : ℕ) : ℚ))
      = ((100 * m : ℕ) : ℚ) * (2 : ℚ) ^ e
          - (2 : ℚ) ^ e * ((2 ^ k : ℕ) : ℚ) / 2 := by
    field_simp
    ring
  have hexp2 : (((100 * m : ℕ) : ℚ) / ((2 ^ k : ℕ) : ℚ) + 1 / 2)
        * ((2 : ℚ) ^ e * ((2 ^ k : ℕ) : ℚ))
      = ((100 * m : ℕ) : ℚ) * (2 : ℚ) ^ e
          + (2 : ℚ) ^ e * ((2 ^ k : ℕ) : ℚ) / 2 := by
    field_simp
    ring
  have hKM : (2 : ℚ) ^ 52 * ((2 ^ k : ℕ) : ℚ) ≤ ((100 * m : ℕ) : ℚ) := by
    push_cast
    rw [← pow_add]
    exact_mod_cast h52
  have key : 0 ≤ (((100 * m : ℕ) : ℚ) / 2 ^ 53 - ((2 ^ k : ℕ) : ℚ) / 2)
      * (2 : ℚ) ^ e :=
    mul_nonneg (by linarith [hKM]) (le_of_lt hEpos)
  have hMe : ((100 * m : ℕ) : ℚ) * (2 : ℚ) ^ e
      = 100 * ((m : ℚ) * (2 : ℚ) ^ e) := by
    push_cast
    ring
  constructor
  · linarith [hm1, hexp1, key, hMe]
  · linarith [hm2, hexp2, key, hMe]

/-- A modelled float is never negative. -/
theorem b64Val_nonneg (me : Nat × ℤ) : 0 ≤ b64Val me := by
  unfold b64Val
  positivity

/-- Python `int()` of a modelled nonnegative float is the floor of its
exact rational value. -/
theorem b64ToInt_eq_floor (me : Nat × ℤ) : b64ToInt me = ⌊b64Val me⌋₊ := by
  obtain ⟨m, e⟩ := me
  unfold b64ToInt b64Val
  dsimp only
  by_cases h : (0 : ℤ) ≤ e
  · rw [if_pos h]
    have he : (2 : ℚ) ^ e = ((2 ^ e.toNat : ℕ) : ℚ) := by
      calc (2 : ℚ) ^ e = (2 : ℚ) ^ ((e.toNat : ℕ) : ℤ) := by
            rw [Int.toNat_of_nonneg h]
        _ = (2 : ℚ) ^ (e.toNat : ℕ) := zpow_natCast 2 e.toNat
        _ = ((2 ^ e.toNat : ℕ) : ℚ) := by push_cast; ring
    rw [he, ← Nat.cast_mul, Nat.floor_natCast]
  · rw [if_neg h]
    push_neg at h
    have hn : e = -(((-e).toNat : ℕ) : ℤ) := by omega
    have he : (2 : ℚ) ^ e = (((2 ^ (-e).toNat : ℕ) : ℚ))⁻¹ := by
      calc (2 : ℚ) ^ e = (2 : ℚ) ^ (-(((-e).toNat : ℕ) : ℤ)) := by rw [← hn]
        _ = ((2 : ℚ) ^ (((-e).toNat : ℕ) : ℤ))⁻¹ := zpow_neg 2 _
        _ = ((2 : ℚ) ^ ((-e).toNat : ℕ))⁻¹ := by rw [zpow_natCast]
        _ = (((2 ^ (-e).toNat : ℕ) : ℚ))⁻¹ := by push_cast; ring
    rw [he, ← div_eq_mul_inv, Nat.floor_div_nat, Nat.floor_natCast]

set_option maxRecDepth 8000 in
/-- `int(p / t * 100)` computed in Python binary64 arithmetic is within
one of the exact integer part of `p / t * 100`, for counters with
`p ≤ t` and `t` within the modelled range. -/
theorem pyIntPercent_close (p t : Nat) (ht : 0 < t) (hpt : p ≤ t)
    (htb : t ≤ 2 ^ 1000) :
    pyIntPercent p t ≤ ⌊(p : ℚ) / t * 100⌋₊ + 1 ∧
      ⌊(p : ℚ) / t * 100⌋₊ ≤ pyIntPercent p t + 1 := by
  by_cases hp : p = 0
  · subst hp
    have h0 : pyIntPercent 0 t = 0 := by
      unfold pyIntPercent
      have hz : b64Div 0 t = (0, 0) := by simp [b64Div]
      rw [hz]
      decide
    have hq : ((0 : ℕ) : ℚ) / t * 100 = 0 := by
      push_cast
      ring
    rw [h0, hq, Nat.floor_zero]
    exact ⟨by omega, by omega⟩
  · have hp' : 0 < p := Nat.pos_of_ne_zero hp
    have hdiv := b64Div_spec p t hp' ht (by omega) (by omega)
    obtain ⟨hm52, hm53, hz1lo, hz1hi⟩ := hdiv
    obtain ⟨hz2lo, hz2hi⟩ := b64Mul100_spec (b64Div p t) hm52 hm53
    have htQ : (0 : ℚ) < t := by exact_mod_cast ht
    have hq1 : (p : ℚ) / t ≤ 1 := by
      rw [div_le_one htQ]
      exact_mod_cast hpt
    have hq0 : (0 : ℚ) ≤ (p : ℚ) / t := by positivity
    have hfl : pyIntPercent p t = ⌊b64Val (b64Mul100 (b64Div p t))⌋₊ :=
      b64ToInt_eq_floor (b64Mul100 (b64Div p t))
    have hub : b64Val (b64Mul100 (b64Div p t)) ≤ (p : ℚ) / t * 100 + 1 := by
      linarith [hz2hi, hz1hi, hq1, hq0]
    have hlb : (p : ℚ) / t * 100 - 1 ≤ b64Val (b64Mul100 (b64Div p t)) := by
      linarith [hz2lo, hz1lo, hq1, hq0]
    constructor
    · rw [hfl]
      have h1 : ⌊b64Val (b64Mul100 (b64Div p t))⌋₊ ≤ ⌊(p : ℚ) / t * 100 + 1⌋₊ :=
        Nat.floor_le_floor hub
      have h2 : ⌊(p : ℚ) / t * 100 + 1⌋₊ = ⌊(p : ℚ) / t * 100⌋₊ + 1 :=
        Nat.floor_add_one (by positivity)
      omega
    · rw [hfl]
      have h1 : ⌊(p : ℚ) / t * 100⌋₊
          ≤ ⌊b64Val (b64Mul100 (b64Div p t)) + 1⌋₊ :=
        Nat.floor_le_floor (by linarith [hlb])
      have h2 : ⌊b64Val (b64Mul100 (b64Div p t)) + 1⌋₊
          = ⌊b64Val (b64Mul100 (b64Div p t))⌋₊ + 1 :=
        Nat.floor_add_one (b64Val_nonneg (b64Mul100 (b64Div p t)))
      omega

/-! ## The cancellation endpoint writes no marker -/

theorem processChunks_no_cancel (cancel : Nat → Bool)
    (failAt : Option (Nat × String)) (now totalRows : Nat)
    (hcancel : ∀ i, cancel i = false) :
    ∀ (chunks : List (List Row)) (k : Nat) (st : List StoredEntity × Nat)
      (imported : Nat) (pub : List Snapshot),
      (processChunks cancel failAt now totalRows chunks k st imported
          pub).outcome ≠ .cancelled ∧
        ∀ s ∈ (processChunks cancel failAt now totalRows chunks k st imported
          pub).published, s ∈ pub ∨ s.state = "PROGRESS"
  | [], k, st, imported, pub => by
    refine ⟨by simp [processChunks], ?_⟩
    intro s hs
    exact Or.inl (by simpa [processChunks] using hs)
  | chunk :: rest, k, st, imported, pub => by
    by_cases hfail : failAt.map Prod.fst = some k
    · have heq : processChunks cancel failAt now totalRows (chunk :: rest) k st
          imported pub
          = ⟨st.1, st.2, imported, pub, .failed⟩ := by
        simp [processChunks, hcancel k, hfail]
      rw [heq]
      exact ⟨by simp, fun s hs => Or.inl hs⟩
    · by_cases hbe : (validProducts chunk).isEmpty
      · have heq : processChunks cancel failAt now totalRows (chunk :: rest) k
            st imported pub
            = processChunks cancel failAt now totalRows rest (k + 1) st
              imported pub := by
          simp [processChunks, hcancel k, hfail, hbe]
        rw [heq]
        exact processChunks_no_cancel cancel failAt now totalRows hcancel rest
          (k + 1) st imported pub
      · set pub' := if k * chunkSize % 5000 = 0 ∨
            min (k * chunkSize + chunkSize) totalRows = totalRows then
            pub ++ [progressSnap (min (k * chunkSize + chunkSize) totalRows)
              totalRows]
          else pub with hpub'
        have heq : processChunks cancel failAt now totalRows (chunk :: rest) k
            st imported pub
            = processChunks cancel failAt now totalRows rest (k + 1)
              (upsertBatch now (validProducts chunk) st)
              (imported + (validProducts chunk).length) pub' := by
          simp only [processChunks, hcancel k, Bool.false_eq_true, if_false,
            if_neg hfail, hbe, hpub']
        rw [heq]
        have ih := processChunks_no_cancel cancel failAt now totalRows hcancel
          rest (k + 1) (upsertBatch now (validProducts chunk) st)
          (imported + (validProducts chunk).length) pub'
        refine ⟨ih.1, ?_⟩
        intro s hs
        rcases ih.2 s hs with hmem | hprog
        · rw [hpub'] at hmem
          by_cases hpubc : k * chunkSize % 5000 = 0 ∨
              min (k * chunkSize + chunkSize) totalRows = totalRows
          · rw [if_pos hpubc] at hmem
            rcases List.mem_append.1 hmem with hl | hr
            · exact Or.inl hl
            · rw [List.mem_singleton.1 hr]
              exact Or.inr rfl
          · rw [if_neg hpubc] at hmem
            exact Or.inl hmem
        · exact Or.inr hprog

/-- C10: the HTTP cancellation endpoint writes no `cancel:<task id>`
marker into the key-value store (it only issues a Celery revoke), and a
run whose cancel marker is never present — as for the in-process asyncio
jobs started by the upload endpoint — never reaches the CANCELLED
outcome, never gets job status CANCELLED, and never publishes a
CANCELLED snapshot, so no later poll can mark it CANCELLED either. -/
theorem c10_cancel_endpoint_ineffective (kv : KVStore) (tid : String) :
    (cancelUpload kv tid).1 = kv ∧
      lookupKV (cancelUpload kv tid).1 (String.append "cancel:" tid)
        = lookupKV kv (String.append "cancel:" tid) ∧
      ∀ (cancel : Nat → Bool) (failAt : Option (Nat × String)) (now : Nat)
        (rows : List Row) (job0 : ImportJob) (s0 : List StoredEntity)
        (n0 : Nat),
        (∀ i, cancel i = false) →
        (runImport cancel failAt now rows job0 s0 n0).outcome
            ≠ .cancelled ∧
          (runImport cancel failAt now rows job0 s0 n0).job.status
            ≠ "CANCELLED" ∧
          ∀ s ∈ (runImport cancel failAt now rows job0 s0 n0).published,
            s.state ≠ "CANCELLED" := by
  refine ⟨rfl, rfl, ?_⟩
  intro cancel failAt now rows job0 s0 n0 hcancel
  have hnc := processChunks_no_cancel cancel failAt now rows.length hcancel
    (chunkList rows) 0 (s0, n0) 0 [initialSnap rows.length]
  have hmem : ∀ s ∈ (processChunks cancel failAt now rows.length
      (chunkList rows) 0 (s0, n0) 0 [initialSnap rows.length]).published,
      s.state ≠ "CANCELLED" := by
    intro s hs
    rcases hnc.2 s hs with hmem | hprog
    · rw [List.mem_singleton.1 hmem]
      simp [initialSnap]
    · rw [hprog]
      simp
  simp only [runImport]
  cases houtcome : (processChunks cancel failAt now rows.length
      (chunkList rows) 0 (s0, n0) 0 [initialSnap rows.length]).outcome with
  | success =>
    refine ⟨by simp, by simp, ?_⟩
    intro s hs
    simp only [] at hs
    rcases List.mem_append.1 hs with hl | hr
    · exact hmem s hl
    · rw [List.mem_singleton.1 hr]
      simp [successSnap]
  | cancelled => exact absurd houtcome hnc.1
  | failed =>
    refine ⟨by simp, by simp, ?_⟩
    intro s hs
    simp only [] at hs
    rcases List.mem_append.1 hs with hl | hr
    · exact hmem s hl
    · rw [List.mem_singleton.1 hr]
      simp [failureSnap]

/-- Witness for C10: calling the endpoint on a store and running a job
without markers. -/
theorem c10_cancel_endpoint_ineffective_witness :
    (cancelUpload [("task:42", "x")] "42").1 = [("task:42", "x")] ∧
      lookupKV (cancelUpload [("task:42", "x")] "42").1
          (String.append "cancel:" "42")
        = lookupKV [("task:42", "x")] (String.append "cancel:" "42") ∧
      (runImport (fun _ => false) none 0 [(⟨"N", "S", ""⟩ : Row)]
          ⟨"PENDING", 0, 0⟩ [] 0).outcome ≠ .cancelled ∧
      (runImport (fun _ => false) none 0 [(⟨"N", "S", ""⟩ : Row)]
          ⟨"PENDING", 0, 0⟩ [] 0).job.status ≠ "CANCELLED" := by
  have h := c10_cancel_endpoint_ineffective [("task:42", "x")] "42"
  have h3 := h.2.2 (fun _ => false) none 0 [(⟨"N", "S", ""⟩ : Row)]
    ⟨"PENDING", 0, 0⟩ [] 0 (fun _ => rfl)
  exact ⟨h.1, h.2.1, h3.1, h3.2.1⟩

/-! ## The progress fallback view -/

/-- Counterexample to C9 as stated: at `records_processed = 29`,
`total_records = 100` the fallback view reports 28 percent, because
Python evaluates `29 / 100 * 100` in binary64 arithmetic as
`28.999999999999996` and `int()` truncates — one below the exact
integer part 29 of `29 / 100 * 100`. -/
theorem c9_counterexample :
    (getTaskStatus none (some ⟨"PROGRESS", 29, 100⟩)).1.progress_percent
        = some 28 ∧
      ⌊((29 : ℕ) : ℚ) / ((100 : ℕ) : ℚ) * 100⌋₊ = 29 ∧
        (getTaskStatus none (some ⟨"PROGRESS", 29, 100⟩)).1.progress_percent
          ≠ some ⌊((29 : ℕ) : ℚ) / ((100 : ℕ) : ℚ) * 100⌋₊ := by
  have h1 : pyIntPercent 29 100 = 28 := by decide
  have h2 : ⌊((29 : ℕ) : ℚ) / ((100 : ℕ) : ℚ) * 100⌋₊ = 29 := by
    norm_num
  refine ⟨?_, h2, ?_⟩
  · show (fallbackView ⟨"PROGRESS", 29, 100⟩).progress_percent = some 28
    simp [fallbackView, h1]
  · rw [h2]
    show (fallbackView ⟨"PROGRESS", 29, 100⟩).progress_percent ≠ some 29
    simp [fallbackView, h1]

/-- C9 (amended): with no snapshot in Redis but an ImportJob row, the
synthesized view copies the job's status, records_processed and
total_records, the job row is returned unchanged, and progress_percent
is 0 when total_records is 0 and otherwise is
`int(records_processed / total_records * 100)` evaluated in Python
binary64 float arithmetic — which is within one of (and, e.g. at
29/100, strictly below) the exact integer part of
`records_processed / total_records * 100`. -/
theorem c9_amended (j : ImportJob)
    (hpt : j.records_processed ≤ j.total_records)
    (htb : j.total_records ≤ 2 ^ 1000) :
    (getTaskStatus none (some j)).2 = some j ∧
      (getTaskStatus none (some j)).1.state = j.status ∧
      (getTaskStatus none (some j)).1.current = some j.records_processed ∧
      (getTaskStatus none (some j)).1.total = some j.total_records ∧
      (j.total_records = 0 →
        (getTaskStatus none (some j)).1.progress_percent = some 0) ∧
      (0 < j.total_records →
        (getTaskStatus none (some j)).1.progress_percent
            = some (pyIntPercent j.records_processed j.total_records) ∧
          pyIntPercent j.records_processed j.total_records
              ≤ ⌊(j.records_processed : ℚ) / (j.total_records : ℚ) * 100⌋₊ + 1 ∧
            ⌊(j.records_processed : ℚ) / (j.total_records : ℚ) * 100⌋₊
              ≤ pyIntPercent j.records_processed j.total_records + 1) := by
  refine ⟨rfl, rfl, rfl, rfl, ?_, ?_⟩
  · intro h0
    show (fallbackView j).progress_percent = some 0
    simp [fallbackView, h0]
  · intro hpos
    refine ⟨?_, ?_, ?_⟩
    · show (fallbackView j).progress_percent = some _
      simp [fallbackView, hpos]
    · exact (pyIntPercent_close j.records_processed j.total_records hpos
        hpt htb).1
    · exact (pyIntPercent_close j.records_processed j.total_records hpos
        hpt htb).2

set_option maxRecDepth 8000 in
/-- Witness for C9 (amended) at the job row with 29 of 100 records
processed: the view reports 28 percent, one below the exact integer
part. -/
theorem c9_amended_witness :
    ((29 : ℕ) ≤ 100 ∧ (100 : ℕ) ≤ 2 ^ 1000) ∧
      ((getTaskStatus none (some ⟨"PROGRESS", 29, 100⟩)).2
          = some ⟨"PROGRESS", 29, 100⟩ ∧
        (getTaskStatus none (some ⟨"PROGRESS", 29, 100⟩)).1.state
            = "PROGRESS" ∧
        (getTaskStatus none (some ⟨"PROGRESS", 29, 100⟩)).1.current
            = some 29 ∧
        (getTaskStatus none (some ⟨"PROGRESS", 29, 100⟩)).1.total
            = some 100 ∧
        ((100 : ℕ) = 0 →
          (getTaskStatus none (some ⟨"PROGRESS", 29, 100⟩)).1.progress_percent
            = some 0) ∧
        ((0 : ℕ) < 100 →
          (getTaskStatus none (some ⟨"PROGRESS", 29, 100⟩)).1.progress_percent
              = some (pyIntPercent 29 100) ∧
            pyIntPercent 29 100 ≤ ⌊((29 : ℕ) : ℚ) / ((100 : ℕ) : ℚ) * 100⌋₊ + 1 ∧
              ⌊((29 : ℕ) : ℚ) / ((100 : ℕ) : ℚ) * 100⌋₊
                ≤ pyIntPercent 29 100 + 1)) :=
  ⟨⟨by decide, by decide⟩,
    c9_amended ⟨"PROGRESS", 29, 100⟩ (by decide) (by decide)⟩

end Acme
